import Mathlib

/-!
Shallow embedding of the emergents genome library: segments, the implicit treap
of segments (node.py), the Genome operations (genome.py), and the mutation
classes (mutations/).  Python ints are modelled as Int, raised exceptions as
Except Err, and the random priorities / fresh uuids drawn inside the operations
are passed in explicitly as parameters (theorems quantify over them).
-/

namespace Emergents

/-- segments.py PromoterDirection. -/
inductive PromoterDirection where
  | forward
  | reverse
deriving DecidableEq, Repr

/-- PromoterDirection.switch. -/
def PromoterDirection.switch : PromoterDirection → PromoterDirection
  | .forward => .reverse
  | .reverse => .forward

/-- The run-time class of a segment: NonCodingSegment, or CodingSegment together
with its promoter_direction field. -/
inductive SegKind where
  | noncoding
  | coding (dir : PromoterDirection)
deriving DecidableEq, Repr

/-- segments.py Segment: a length and an identity (uuid4, modelled as Nat). -/
structure Segment where
  kind : SegKind
  length : Int
  sid : Nat
deriving DecidableEq, Repr

/-- Segment.is_noncoding: isinstance(self, NonCodingSegment). -/
def Segment.is_noncoding (s : Segment) : Bool :=
  match s.kind with
  | .noncoding => true
  | .coding _ => false

/-- Segment.clone_with_length: same class (and promoter direction), new length,
fresh identity.  The source raises ValueError on a non-positive new length; every
call site reached in this development passes a positive length, so the clone is
modelled as a total function, with the fresh uuid passed in as fresh_sid. -/
def Segment.clone_with_length (s : Segment) (new_length : Int) (fresh_sid : Nat) : Segment :=
  { kind := s.kind, length := new_length, sid := fresh_sid }

/-- node.py Node / None: left child, segment, priority, cached sub_len, right child. -/
inductive Tree where
  | nil
  | node (left : Tree) (segment : Segment) (priority : Nat) (sub_len : Int) (right : Tree)
deriving DecidableEq, Repr

/-- Reading the cached subtree length: node.sub_len if node else 0. -/
def Tree.sub_len : Tree → Int
  | .nil => 0
  | .node _ _ _ s _ => s

/-- Node(segment): fresh node with sub_len = segment.length, children None,
and the given (random) priority. -/
def mkNode (segment : Segment) (priority : Nat) : Tree :=
  .node .nil segment priority segment.length .nil

/-- A node whose children have just been set, after update_subtree_len: the cache
is recomputed from the segment and the children's caches. -/
def updated (left : Tree) (segment : Segment) (priority : Nat) (right : Tree) : Tree :=
  .node left segment priority (segment.length + left.sub_len + right.sub_len) right

/-- node.py merge: all positions of the first tree come before those of the second. -/
def merge : Tree → Tree → Tree
  | .nil, b => b
  | .node al aseg ap asub ar, .nil => .node al aseg ap asub ar
  | .node al aseg ap asub ar, .node bl bseg bp bsub br =>
    if ap < bp then
      updated al aseg ap (merge ar (.node bl bseg bp bsub br))
    else
      updated (merge (.node al aseg ap asub ar) bl) bseg bp br
termination_by a b => sizeOf a + sizeOf b
decreasing_by all_goals simp_arith

/-- Python exceptions raised by the embedded code. -/
inductive Err where
  | indexError
  | valueError
  | typeError
  | runtimeError
deriving DecidableEq, Repr

/-- node.py split_by_pos: split into ([0, pos), [pos, ...)), splitting a segment in
two clones when pos falls strictly inside it.  fa and fb supply the (priority, sid)
pairs of the two fresh nodes of that case (random.randrange and uuid4 in the source). -/
def split_by_pos (fa fb : Nat × Nat) : Tree → Int → Except Err (Tree × Tree)
  | .nil, _ => .ok (.nil, .nil)
  | .node l seg prio sub r, pos =>
    if pos < 0 ∨ pos > sub then .error .indexError
    else
      let left_sub := l.sub_len
      let seg_len := seg.length
      if pos < left_sub then
        match split_by_pos fa fb l pos with
        | .error e => .error e
        | .ok (a, b) => .ok (a, updated b seg prio r)
      else if pos > left_sub + seg_len then
        match split_by_pos fa fb r (pos - left_sub - seg_len) with
        | .error e => .error e
        | .ok (a, b) => .ok (updated l seg prio a, b)
      else
        let offset := pos - left_sub
        if offset = 0 then
          .ok (l, updated .nil seg prio r)
        else if offset = seg_len then
          .ok (updated l seg prio .nil, r)
        else
          let left_seg := seg.clone_with_length offset fa.2
          let right_seg := seg.clone_with_length (seg_len - offset) fb.2
          .ok (merge l (mkNode left_seg fa.1), merge (mkNode right_seg fb.1) r)

/-- In-order list of segments of the tree (the order of iter_segments). -/
def Tree.inorder : Tree → List Segment
  | .nil => []
  | .node l s _ _ r => l.inorder ++ s :: r.inorder

/-- The true total length of the segments in the tree (what sub_len caches). -/
def Tree.real_len : Tree → Int
  | .nil => 0
  | .node l s _ _ r => s.length + l.real_len + r.real_len

/-- Cache well-formedness: every node's sub_len equals the sum of the segment
lengths of its subtree (the invariant update_subtree_len maintains). -/
def Tree.wf : Tree → Bool
  | .nil => true
  | .node l s _ sub r => (sub == s.length + l.real_len + r.real_len) && l.wf && r.wf

/-- All segment lengths in the tree are positive (guaranteed by the Segment
constructors in the source). -/
def Tree.pos_lens : Tree → Bool
  | .nil => true
  | .node l s _ _ r => decide (0 < s.length) && l.pos_lens && r.pos_lens

/-- coordinates.py CoordinateSystem. -/
inductive CoordinateSystem where
  | base
  | gap
deriving DecidableEq, Repr

/-- coordinates.py DefaultCoordinateValidator.validate_position: BASE positions
must lie in [0, genome_length), GAP positions in [0, genome_length]. -/
def validate_position (pos genome_length : Int) (coord_sys : CoordinateSystem) : Except Err Unit :=
  match coord_sys with
  | .base => if pos < 0 ∨ pos ≥ genome_length then .error .indexError else .ok ()
  | .gap => if pos < 0 ∨ pos > genome_length then .error .indexError else .ok ()

/-- genome.py Genome: circular flag and the treap root. -/
structure Genome where
  circular : Bool
  root : Tree
deriving DecidableEq, Repr

/-- Genome.length: root.sub_len if root else 0. -/
def Genome.length (g : Genome) : Int := g.root.sub_len

/-- The construction loop shared by Genome.__init__, coalesce_all and
Inversion.apply: for seg in segs: root = merge(root, Node(seg)), with the k-th
fresh node taking priority prios k. -/
def merge_nodes (prios : Nat → Nat) (k : Nat) (acc : Tree) : List Segment → Tree
  | [] => acc
  | s :: rest => merge_nodes prios (k + 1) (merge acc (mkNode s (prios k))) rest

/-- Genome.__init__(segments, circular). -/
def Genome.init (segments : List Segment) (circular : Bool) (prios : Nat → Nat) : Genome :=
  { circular := circular, root := merge_nodes prios 0 .nil segments }

/-- The segment reached by `while current_node.right: current_node = current_node.right`
(none when the tree is empty). -/
def Tree.rightmost_seg : Tree → Option Segment
  | .nil => none
  | .node _ s _ _ r =>
    match r.rightmost_seg with
    | none => some s
    | some x => some x

/-- The segment reached by `while current_node.left: current_node = current_node.left`. -/
def Tree.leftmost_seg : Tree → Option Segment
  | .nil => none
  | .node l s _ _ _ =>
    match l.leftmost_seg with
    | none => some s
    | some x => some x

/-- Genome._handle_if_last_position: IndexError on an empty genome, otherwise the
rightmost segment with offset = its length, seg_start = length - its length,
seg_end = length. -/
def Genome.handle_if_last_position (g : Genome) : Except Err (Segment × Int × Int × Int) :=
  match g.root.rightmost_seg with
  | none => .error .indexError
  | some seg => .ok (seg, seg.length, g.length - seg.length, g.length)

/-- The descent loop of Genome.find_segment_at_position, with pre the running
prefix length; reaching a None child raises IndexError (internal mismatch). -/
def find_loop : Tree → Int → Int → Except Err (Segment × Int × Int × Int)
  | .nil, _, _ => .error .indexError
  | .node l seg _ _ r, pos, pre =>
    let left_len := l.sub_len
    if pos < pre + left_len then
      find_loop l pos pre
    else if pos ≥ pre + left_len + seg.length then
      find_loop r pos (pre + left_len + seg.length)
    else
      let seg_start := pre + left_len
      .ok (seg, pos - seg_start, seg_start, seg_start + seg.length)

/-- Genome.find_segment_at_position: validate, handle the pos == length sentinel,
otherwise descend.  Returns (segment, offset, seg_start, seg_end). -/
def Genome.find_segment_at_position (g : Genome) (pos : Int) (coord_sys : CoordinateSystem) :
    Except Err (Segment × Int × Int × Int) :=
  match validate_position pos g.length coord_sys with
  | .error e => .error e
  | .ok _ =>
    if pos = g.length then g.handle_if_last_position
    else find_loop g.root pos 0

/-- The left-neighbour coalescing step of Genome.insert_at_gap: if the rightmost
segment of the left part is non-coding, replace mid by a fresh clone combining
the two lengths ((fs 3).2 is its fresh sid, (fs 3).1 its node priority) and drop
that rightmost segment from the left part.  mid, a single node in the source, is
modelled as its (segment, priority) pair. -/
def insert_left_coalesce (pos : Int) (segment : Segment) (fs : Nat → Nat × Nat)
    (left0 : Tree) (mid0 : Segment × Nat) : Except Err (Tree × (Segment × Nat)) :=
  match left0.rightmost_seg with
  | none => .ok (left0, mid0)
  | some rm =>
    if rm.is_noncoding then
      match split_by_pos (fs 4) (fs 5) left0 (pos - rm.length) with
      | .error e => .error e
      | .ok lsp =>
        .ok (lsp.1, (rm.clone_with_length (rm.length + segment.length) (fs 3).2, (fs 3).1))
    else .ok (left0, mid0)

/-- The right-neighbour coalescing step of Genome.insert_at_gap: if the leftmost
segment of the right part is non-coding, replace mid by a fresh clone combining
its length with mid's and drop that leftmost segment from the right part. -/
def insert_right_coalesce (fs : Nat → Nat × Nat) (right0 : Tree) (mid1 : Segment × Nat) :
    Except Err (Tree × (Segment × Nat)) :=
  match right0.leftmost_seg with
  | none => .ok (right0, mid1)
  | some lm =>
    if lm.is_noncoding then
      match split_by_pos (fs 7) (fs 8) right0 lm.length with
      | .error e => .error e
      | .ok rsp =>
        .ok (rsp.2, (lm.clone_with_length (mid1.1.length + lm.length) (fs 6).2, (fs 6).1))
    else .ok (right0, mid1)

/-- Genome.insert_at_gap(pos, segment): TypeError on a coding segment, GAP
validation, split at pos, coalesce a non-coding neighbour on each side into the
new node, and re-merge.  fs supplies the random (priority, sid) draws: fs 0/fs 1
for the initial split, (fs 2).1 for Node(segment), fs 3-5 for the left-coalesce,
fs 6-8 for the right-coalesce. -/
def Genome.insert_at_gap (g : Genome) (pos : Int) (segment : Segment) (fs : Nat → Nat × Nat) :
    Except Err Genome :=
  if segment.is_noncoding = false then .error .typeError
  else match validate_position pos g.length CoordinateSystem.gap with
  | .error e => .error e
  | .ok _ =>
    match split_by_pos (fs 0) (fs 1) g.root pos with
    | .error e => .error e
    | .ok lr =>
      match insert_left_coalesce pos segment fs lr.1 (segment, (fs 2).1) with
      | .error e => .error e
      | .ok s1 =>
        match insert_right_coalesce fs lr.2 s1.2 with
        | .error e => .error e
        | .ok s2 => .ok { g with root := merge (merge s1.1 (mkNode s2.2.1 s2.2.2)) s2.1 }

/-- The split-split-merge core of Genome.delete_range: drop the bases of
[start, stop) once the validations and the wrap analysis are done. -/
def delete_core (g : Genome) (start stop : Int) (f1 f2 f3 f4 : Nat × Nat) : Except Err Genome :=
  match split_by_pos f1 f2 g.root start with
  | .error e => .error e
  | .ok lr =>
    match split_by_pos f3 f4 lr.2 (stop - start) with
    | .error e => .error e
    | .ok mr => .ok { g with root := merge lr.1 mr.2 }

/-- Genome.delete_range(start, end): start validated as BASE, end as GAP; no-op
when start == end; wrap-around (two sequential deletes) when start > end on a
circular genome, ValueError otherwise.  The source's recursive call
`self.delete_range(start, self.length)` is unfolded to delete_core here: its two
validations provably succeed (start was just BASE-validated and length is always
GAP-valid) and start < length rules out its other branches. -/
def Genome.delete_range (g : Genome) (start stop : Int) (fs : Nat → Nat × Nat) :
    Except Err Genome :=
  match validate_position start g.length CoordinateSystem.base with
  | .error e => .error e
  | .ok _ =>
    match validate_position stop g.length CoordinateSystem.gap with
    | .error e => .error e
    | .ok _ =>
      if start = stop then .ok g
      else if start > stop then
        if g.circular then
          match delete_core g start g.length (fs 0) (fs 1) (fs 2) (fs 3) with
          | .error e => .error e
          | .ok g1 => delete_core g1 0 stop (fs 4) (fs 5) (fs 6) (fs 7)
        else .error .valueError
      else
        delete_core g start stop (fs 4) (fs 5) (fs 6) (fs 7)

/-- Genome.extend_segment_at(pos, delta) (current revision): ValueError on
delta < 0, GAP validation, TypeError on a coding segment, otherwise the isolated
node's segment is replaced by clone_with_length(length + delta) and the tree is
re-merged ((fs 4).2 is the clone's fresh sid). -/
def Genome.extend_segment_at (g : Genome) (pos delta : Int) (fs : Nat → Nat × Nat) :
    Except Err Genome :=
  if delta < 0 then .error .valueError
  else match validate_position pos g.length CoordinateSystem.gap with
  | .error e => .error e
  | .ok _ =>
    match g.find_segment_at_position pos CoordinateSystem.gap with
    | .error e => .error e
    | .ok found =>
      if found.1.is_noncoding = false then .error .typeError
      else match split_by_pos (fs 0) (fs 1) g.root found.2.2.1 with
      | .error e => .error e
      | .ok lr =>
        match split_by_pos (fs 2) (fs 3) lr.2 found.1.length with
        | .error e => .error e
        | .ok mr =>
          match mr.1 with
          | .nil => .error .runtimeError
          | .node ml ms mp _ mrr =>
            let root_node := updated ml (ms.clone_with_length (ms.length + delta) (fs 4).2) mp mrr
            .ok { g with root := merge (merge lr.1 root_node) mr.2 }

/-- Genome.iter_segments: yield (segment, start, end) in order, end inclusive,
positions computed from the cached sub_len values. -/
def iter_tree : Tree → Int → List (Segment × Int × Int)
  | .nil, _ => []
  | .node l s _ _ r, acc =>
    let left_len := l.sub_len
    let seg_start := acc + left_len
    let seg_end := seg_start + s.length - 1
    iter_tree l acc ++ (s, seg_start, seg_end) :: iter_tree r (seg_end + 1)

/-- Genome.iter_segments. -/
def Genome.iter_segments (g : Genome) : List (Segment × Int × Int) :=
  iter_tree g.root 0

/-- The merging loop of Genome.coalesce_all: walk the segments left to right,
replacing the last accumulated segment by a clone with the combined length (and a
fresh id, (sids k).2 at the k-th step) whenever it and the next segment are both
non-coding.  Written as recursion on the remaining list; it performs the source
loop's merges in the same order. -/
def coalesce_list (sids : Nat → Nat) (k : Nat) : List Segment → List Segment
  | [] => []
  | [s] => [s]
  | a :: b :: rest =>
    if a.is_noncoding && b.is_noncoding then
      coalesce_list sids (k + 1) (a.clone_with_length (a.length + b.length) (sids k) :: rest)
    else
      a :: coalesce_list sids (k + 1) (b :: rest)
termination_by l => l.length

/-- Genome.coalesce_all: flatten via iter_segments, merge adjacent non-coding
segments, rebuild the tree (prios supplies the rebuilt nodes' priorities). -/
def Genome.coalesce_all (g : Genome) (sids : Nat → Nat) (prios : Nat → Nat) : Genome :=
  match g.iter_segments with
  | [] => { g with root := .nil }
  | x :: rest =>
    { g with
      root := merge_nodes prios 0 .nil (coalesce_list sids 0 ((x :: rest).map fun t => t.1)) }

/-- mutations/deletion.py Deletion. -/
structure Deletion where
  start_pos : Int
  end_pos : Int
deriving DecidableEq, Repr

/-- Deletion._intervals_for_del: two intervals on wrap-around (start > end),
one otherwise. -/
def Deletion.intervals_for_del (d : Deletion) (g : Genome) : List (Int × Int) :=
  if d.start_pos > d.end_pos then [(d.start_pos, g.length), (0, d.end_pos)]
  else [(d.start_pos, d.end_pos)]

/-- Deletion._is_deleted_seg_neutral: the segment at start_pos (BASE) must be
non-coding and be the very segment found at end_pos (GAP); `sid is sid` identity
is modelled as equality of the Nat ids. -/
def Deletion.is_deleted_seg_neutral (g : Genome) (start_pos end_pos : Int) : Except Err Bool :=
  match g.find_segment_at_position start_pos CoordinateSystem.base with
  | .error e => .error e
  | .ok at_start =>
    if at_start.1.is_noncoding = false then .ok false
    else match g.find_segment_at_position end_pos CoordinateSystem.gap with
    | .error e => .error e
    | .ok at_end => .ok (at_start.1.sid == at_end.1.sid)

/-- Deletion.is_neutral: every interval of _intervals_for_del must be neutral. -/
def Deletion.is_neutral (d : Deletion) (g : Genome) : Except Err Bool :=
  match d.intervals_for_del g with
  | [] => .ok true
  | [iv] => Deletion.is_deleted_seg_neutral g iv.1 iv.2
  | iv :: iv2 :: _ =>
    match Deletion.is_deleted_seg_neutral g iv.1 iv.2 with
    | .error e => .error e
    | .ok b =>
      if b = false then .ok false
      else Deletion.is_deleted_seg_neutral g iv2.1 iv2.2

/-- Deletion.apply: genome.delete_range(start_pos, end_pos + 1). -/
def Deletion.apply (d : Deletion) (g : Genome) (fs : Nat → Nat × Nat) : Except Err Genome :=
  g.delete_range d.start_pos (d.end_pos + 1) fs

/-- mutations/duplication.py Duplication. -/
structure Duplication where
  start_pos : Int
  end_pos : Int
  insertion_pos : Int
deriving DecidableEq, Repr

/-- Duplication.get_length, with the length cache elided (the cached value is
computed from the genome on first use, which is what apply observes):
end - start + 1 when start <= end, genome.length - (start - end + 1) otherwise. -/
def Duplication.get_length (d : Duplication) (g : Genome) : Int :=
  if d.start_pos ≤ d.end_pos then d.end_pos - d.start_pos + 1
  else g.length - (d.start_pos - d.end_pos + 1)

/-- Duplication.apply: insert_at_gap(insertion_pos, NonCodingSegment(get_length(genome)));
fresh_sid is the new segment's uuid. -/
def Duplication.apply (d : Duplication) (g : Genome) (fs : Nat → Nat × Nat) (fresh_sid : Nat) :
    Except Err Genome :=
  g.insert_at_gap d.insertion_pos
    { kind := .noncoding, length := d.get_length g, sid := fresh_sid } fs

/-- mutations/point_mutation.py PointMutation. -/
structure PointMutation where
  position : Int
deriving DecidableEq, Repr

/-- PointMutation.apply is `pass`: the genome is untouched. -/
def PointMutation.apply (_ : PointMutation) (g : Genome) : Except Err Genome :=
  .ok g

/-- mutations/small_deletion.py SmallDeletion. -/
structure SmallDeletion where
  position : Int
  length : Int
deriving DecidableEq, Repr

/-- SmallDeletion.apply: genome.delete_range(position, position + length). -/
def SmallDeletion.apply (m : SmallDeletion) (g : Genome) (fs : Nat → Nat × Nat) :
    Except Err Genome :=
  g.delete_range m.position (m.position + m.length) fs

/-- mutations/small_insertion.py SmallInsertion. -/
structure SmallInsertion where
  position : Int
  length : Int
deriving DecidableEq, Repr

/-- SmallInsertion.apply: genome.insert_at_gap(position, NonCodingSegment(length)). -/
def SmallInsertion.apply (m : SmallInsertion) (g : Genome) (fs : Nat → Nat × Nat)
    (fresh_sid : Nat) : Except Err Genome :=
  g.insert_at_gap m.position { kind := .noncoding, length := m.length, sid := fresh_sid } fs

/-- mutations/inversion.py Inversion (positions after __init__). -/
structure Inversion where
  start_pos : Int
  end_pos : Int
  reverted : Bool
deriving DecidableEq, Repr

/-- Inversion.__init__ (current revision): ValueError on a negative position or on
start == end, then auto-swap when start > end. -/
def Inversion.mk_checked (start_pos end_pos : Int) : Except Err Inversion :=
  if start_pos < 0 ∨ end_pos < 0 then .error .valueError
  else if start_pos = end_pos then .error .valueError
  else if start_pos > end_pos then
    .ok { start_pos := end_pos, end_pos := start_pos, reverted := true }
  else
    .ok { start_pos := start_pos, end_pos := end_pos, reverted := false }

/-- The in-place promoter flip of Inversion.apply: coding segments get their
promoter_direction switched (identity kept), non-coding segments are untouched. -/
def segment_invert (s : Segment) : Segment :=
  match s.kind with
  | .coding dir => { s with kind := .coding dir.switch }
  | .noncoding => s

/-- `update_subtree_len(genome.root)` at the end of Inversion.apply: recompute the
root's cache only. -/
def touch_root : Tree → Tree
  | .nil => .nil
  | .node l s p _ r => updated l s p r

/-- The left-boundary coalescing step of Inversion.apply: when both the rightmost
segment of the left part and the first inverted segment are non-coding, drop both
and append a fresh clone combining their lengths to the left part. -/
def inversion_left_step (inv : Inversion) (fs : Nat → Nat × Nat) (left0 : Tree)
    (inverted : List Segment) : Except Err (Tree × List Segment) :=
  match left0.rightmost_seg with
  | none => .ok (left0, inverted)
  | some rm =>
    match inverted with
    | [] => .ok (left0, inverted)
    | s0 :: srest =>
      if rm.is_noncoding && s0.is_noncoding then
        match split_by_pos (fs 5) (fs 6) left0 (inv.start_pos - rm.length) with
        | .error e => .error e
        | .ok lsp =>
          .ok (merge lsp.1
            (mkNode (rm.clone_with_length (rm.length + s0.length) (fs 4).2) (fs 4).1), srest)
      else .ok (left0, s0 :: srest)

/-- The right-boundary coalescing step of Inversion.apply: when both the leftmost
segment of the right part and the last inverted segment are non-coding, drop both
and prepend a fresh clone combining their lengths to the right part. -/
def inversion_right_step (fs : Nat → Nat × Nat) (right0 : Tree)
    (inverted1 : List Segment) : Except Err (Tree × List Segment) :=
  match right0.leftmost_seg with
  | none => .ok (right0, inverted1)
  | some lm =>
    match inverted1.getLast? with
    | none => .ok (right0, inverted1)
    | some slast =>
      if lm.is_noncoding && slast.is_noncoding then
        match split_by_pos (fs 8) (fs 9) right0 lm.length with
        | .error e => .error e
        | .ok rsp =>
          .ok (merge (mkNode (lm.clone_with_length (slast.length + lm.length) (fs 7).2) (fs 7).1)
            rsp.2, inverted1.dropLast)
      else .ok (right0, inverted1)

/-- Inversion.apply (current revision): split out [start_pos, end_pos), flatten,
reverse with promoter flips, coalesce a non-coding boundary pair on each side,
rebuild and re-merge.  fs supplies priorities and fresh sids as in the other
operations (fs (10+k) for the rebuilt middle nodes). -/
def Inversion.apply (inv : Inversion) (g : Genome) (fs : Nat → Nat × Nat) :
    Except Err Genome :=
  match split_by_pos (fs 0) (fs 1) g.root inv.start_pos with
  | .error e => .error e
  | .ok lr =>
    match split_by_pos (fs 2) (fs 3) lr.2 (inv.end_pos - inv.start_pos) with
    | .error e => .error e
    | .ok mr =>
      match inversion_left_step inv fs lr.1 ((Tree.inorder mr.1).reverse.map segment_invert) with
      | .error e => .error e
      | .ok s1 =>
        match inversion_right_step fs mr.2 s1.2 with
        | .error e => .error e
        | .ok s2 =>
          let new_mid := merge_nodes (fun k => (fs (10 + k)).1) 0 .nil s2.2
          let root1 := if s1.1 = .nil then new_mid else merge s1.1 new_mid
          let root2 := if s2.1 = .nil then root1 else merge root1 s2.1
          .ok { g with root := touch_root root2 }

/-! ### Basic tree lemmas -/

@[simp] lemma sub_len_nil : Tree.nil.sub_len = 0 := rfl

@[simp] lemma sub_len_node (l : Tree) (s : Segment) (p : Nat) (c : Int) (r : Tree) :
    (Tree.node l s p c r).sub_len = c := rfl

@[simp] lemma sub_len_updated (l : Tree) (s : Segment) (p : Nat) (r : Tree) :
    (updated l s p r).sub_len = s.length + l.sub_len + r.sub_len := rfl

@[simp] lemma inorder_nil : Tree.nil.inorder = [] := rfl

@[simp] lemma inorder_node (l : Tree) (s : Segment) (p : Nat) (c : Int) (r : Tree) :
    (Tree.node l s p c r).inorder = l.inorder ++ s :: r.inorder := rfl

@[simp] lemma inorder_updated (l : Tree) (s : Segment) (p : Nat) (r : Tree) :
    (updated l s p r).inorder = l.inorder ++ s :: r.inorder := rfl

@[simp] lemma inorder_mkNode (s : Segment) (p : Nat) : (mkNode s p).inorder = [s] := rfl

@[simp] lemma real_len_nil : Tree.nil.real_len = 0 := rfl

@[simp] lemma real_len_node (l : Tree) (s : Segment) (p : Nat) (c : Int) (r : Tree) :
    (Tree.node l s p c r).real_len = s.length + l.real_len + r.real_len := rfl

@[simp] lemma real_len_updated (l : Tree) (s : Segment) (p : Nat) (r : Tree) :
    (updated l s p r).real_len = s.length + l.real_len + r.real_len := rfl

lemma wf_node_iff {l r : Tree} {s : Segment} {p : Nat} {c : Int} :
    (Tree.node l s p c r).wf = true ↔
      c = s.length + l.real_len + r.real_len ∧ l.wf = true ∧ r.wf = true := by
  simp [Tree.wf, Bool.and_eq_true, and_assoc]

@[simp] lemma wf_nil : Tree.nil.wf = true := rfl

lemma wf_sub_len {t : Tree} (h : t.wf = true) : t.sub_len = t.real_len := by
  cases t with
  | nil => rfl
  | node l s p c r => exact (wf_node_iff.mp h).1

lemma wf_updated {l r : Tree} {s : Segment} {p : Nat}
    (hl : l.wf = true) (hr : r.wf = true) : (updated l s p r).wf = true := by
  rw [updated, wf_node_iff]
  exact ⟨by rw [wf_sub_len hl, wf_sub_len hr], hl, hr⟩

lemma wf_mkNode (s : Segment) (p : Nat) : (mkNode s p).wf = true := by
  rw [mkNode, wf_node_iff]
  simp

lemma pos_lens_node_iff {l r : Tree} {s : Segment} {p : Nat} {c : Int} :
    (Tree.node l s p c r).pos_lens = true ↔
      0 < s.length ∧ l.pos_lens = true ∧ r.pos_lens = true := by
  simp [Tree.pos_lens, Bool.and_eq_true, and_assoc]

@[simp] lemma pos_lens_nil : Tree.nil.pos_lens = true := rfl

lemma pos_lens_updated {l r : Tree} {s : Segment} {p : Nat} (hs : 0 < s.length)
    (hl : l.pos_lens = true) (hr : r.pos_lens = true) : (updated l s p r).pos_lens = true := by
  rw [updated, pos_lens_node_iff]
  exact ⟨hs, hl, hr⟩

lemma pos_lens_mkNode {s : Segment} (hs : 0 < s.length) (p : Nat) :
    (mkNode s p).pos_lens = true := by
  rw [mkNode, pos_lens_node_iff]
  simp [hs]

/-- Total length of a list of segments. -/
def list_len (l : List Segment) : Int :=
  (l.map Segment.length).sum

@[simp] lemma list_len_nil : list_len [] = 0 := rfl

@[simp] lemma list_len_cons (s : Segment) (l : List Segment) :
    list_len (s :: l) = s.length + list_len l := by
  simp [list_len]

@[simp] lemma list_len_append (a b : List Segment) :
    list_len (a ++ b) = list_len a + list_len b := by
  simp [list_len]

lemma real_len_eq_list_len (t : Tree) : t.real_len = list_len t.inorder := by
  induction t with
  | nil => rfl
  | node l s p c r ihl ihr => simp [ihl, ihr]; ring

lemma pos_lens_real_len_nonneg {t : Tree} (h : t.pos_lens = true) : 0 ≤ t.real_len := by
  induction t with
  | nil => simp
  | node l s p c r ihl ihr =>
    rcases pos_lens_node_iff.mp h with ⟨hs, hl, hr⟩
    have := ihl hl
    have := ihr hr
    simp only [real_len_node]
    omega

lemma inorder_eq_nil_iff {t : Tree} : t.inorder = [] ↔ t = .nil := by
  cases t with
  | nil => simp
  | node l s p c r => simp

/-! ### Merge lemmas -/

lemma inorder_merge (a b : Tree) : (merge a b).inorder = a.inorder ++ b.inorder := by
  induction a, b using merge.induct with
  | case1 b => simp [merge]
  | case2 al aseg ap asub ar => simp [merge]
  | case3 al aseg ap asub ar bl bseg bp bsub br h ih =>
    rw [merge]
    simp only [if_pos h, inorder_updated, inorder_node, ih]
    simp
  | case4 al aseg ap asub ar bl bseg bp bsub br h ih =>
    rw [merge]
    simp only [if_neg h, inorder_updated, inorder_node, ih]
    simp

lemma real_len_merge (a b : Tree) : (merge a b).real_len = a.real_len + b.real_len := by
  have := congrArg list_len (inorder_merge a b)
  rw [list_len_append, ← real_len_eq_list_len, ← real_len_eq_list_len, ← real_len_eq_list_len] at this
  exact this

lemma wf_merge {a b : Tree} (ha : a.wf = true) (hb : b.wf = true) :
    (merge a b).wf = true := by
  induction a, b using merge.induct with
  | case1 b => simpa [merge] using hb
  | case2 al aseg ap asub ar => simpa [merge] using ha
  | case3 al aseg ap asub ar bl bseg bp bsub br h ih =>
    rcases wf_node_iff.mp ha with ⟨hca, hla, hra⟩
    rw [merge, if_pos h]
    exact wf_updated hla (ih hra hb)
  | case4 al aseg ap asub ar bl bseg bp bsub br h ih =>
    rcases wf_node_iff.mp hb with ⟨hcb, hlb, hrb⟩
    rw [merge, if_neg h]
    exact wf_updated (ih ha hlb) hrb

lemma pos_lens_iff_inorder {t : Tree} :
    t.pos_lens = true ↔ ∀ s ∈ t.inorder, 0 < s.length := by
  induction t with
  | nil => simp
  | node l s p c r ihl ihr =>
    rw [pos_lens_node_iff, ihl, ihr]
    constructor
    · rintro ⟨hs, hl, hr⟩ x hx
      simp only [inorder_node, List.mem_append, List.mem_cons] at hx
      rcases hx with h | h | h
      · exact hl x h
      · exact h ▸ hs
      · exact hr x h
    · intro h
      refine ⟨h s (by simp), fun x hx => h x (by simp [hx]), fun x hx => h x (by simp [hx])⟩

lemma pos_lens_merge {a b : Tree} (ha : a.pos_lens = true) (hb : b.pos_lens = true) :
    (merge a b).pos_lens = true := by
  rw [pos_lens_iff_inorder] at ha hb ⊢
  intro s hs
  rw [inorder_merge, List.mem_append] at hs
  rcases hs with h | h
  · exact ha s h
  · exact hb s h

/-! ### Split lemmas -/

lemma split_eval_oob {fa fb : Nat × Nat} {tl : Tree} {s : Segment} {p : Nat} {c : Int}
    {tr : Tree} {pos : Int} (h : pos < 0 ∨ pos > c) :
    split_by_pos fa fb (.node tl s p c tr) pos = .error .indexError := by
  simp only [split_by_pos]
  rw [if_pos h]

lemma split_eval_left {fa fb : Nat × Nat} {tl : Tree} {s : Segment} {p : Nat} {c : Int}
    {tr : Tree} {pos : Int} (hb : ¬(pos < 0 ∨ pos > c)) (h1 : pos < tl.sub_len) :
    split_by_pos fa fb (.node tl s p c tr) pos =
      (split_by_pos fa fb tl pos).map (fun ab => (ab.1, updated ab.2 s p tr)) := by
  simp only [split_by_pos]
  rw [if_neg hb, if_pos h1]
  cases split_by_pos fa fb tl pos with
  | error e => rfl
  | ok ab => rfl

lemma split_eval_right {fa fb : Nat × Nat} {tl : Tree} {s : Segment} {p : Nat} {c : Int}
    {tr : Tree} {pos : Int} (hb : ¬(pos < 0 ∨ pos > c)) (h1 : ¬pos < tl.sub_len)
    (h2 : pos > tl.sub_len + s.length) :
    split_by_pos fa fb (.node tl s p c tr) pos =
      (split_by_pos fa fb tr (pos - tl.sub_len - s.length)).map
        (fun ab => (updated tl s p ab.1, ab.2)) := by
  simp only [split_by_pos]
  rw [if_neg hb, if_neg h1, if_pos h2]
  cases split_by_pos fa fb tr (pos - tl.sub_len - s.length) with
  | error e => rfl
  | ok ab => rfl

lemma split_eval_before {fa fb : Nat × Nat} {tl : Tree} {s : Segment} {p : Nat} {c : Int}
    {tr : Tree} {pos : Int} (hb : ¬(pos < 0 ∨ pos > c)) (h1 : ¬pos < tl.sub_len)
    (h2 : ¬pos > tl.sub_len + s.length) (h3 : pos - tl.sub_len = 0) :
    split_by_pos fa fb (.node tl s p c tr) pos = .ok (tl, updated .nil s p tr) := by
  simp only [split_by_pos]
  rw [if_neg hb, if_neg h1, if_neg h2, if_pos h3]

lemma split_eval_after {fa fb : Nat × Nat} {tl : Tree} {s : Segment} {p : Nat} {c : Int}
    {tr : Tree} {pos : Int} (hb : ¬(pos < 0 ∨ pos > c)) (h1 : ¬pos < tl.sub_len)
    (h2 : ¬pos > tl.sub_len + s.length) (h3 : ¬pos - tl.sub_len = 0)
    (h4 : pos - tl.sub_len = s.length) :
    split_by_pos fa fb (.node tl s p c tr) pos = .ok (updated tl s p .nil, tr) := by
  simp only [split_by_pos]
  rw [if_neg hb, if_neg h1, if_neg h2, if_neg h3, if_pos h4]

lemma split_eval_inside {fa fb : Nat × Nat} {tl : Tree} {s : Segment} {p : Nat} {c : Int}
    {tr : Tree} {pos : Int} (hb : ¬(pos < 0 ∨ pos > c)) (h1 : ¬pos < tl.sub_len)
    (h2 : ¬pos > tl.sub_len + s.length) (h3 : ¬pos - tl.sub_len = 0)
    (h4 : ¬pos - tl.sub_len = s.length) :
    split_by_pos fa fb (.node tl s p c tr) pos =
      .ok (merge tl (mkNode (s.clone_with_length (pos - tl.sub_len) fa.2) fa.1),
           merge (mkNode (s.clone_with_length (s.length - (pos - tl.sub_len)) fb.2) fb.1) tr) := by
  simp only [split_by_pos]
  rw [if_neg hb, if_neg h1, if_neg h2, if_neg h3, if_neg h4]

lemma split_wf_of_ok {fa fb : Nat × Nat} :
    ∀ {t : Tree} {pos : Int} {l r : Tree}, t.wf = true →
      split_by_pos fa fb t pos = .ok (l, r) → l.wf = true ∧ r.wf = true := by
  intro t
  induction t with
  | nil =>
    intro pos l r hw h
    simp only [split_by_pos, Except.ok.injEq, Prod.mk.injEq] at h
    rcases h with ⟨h1, h2⟩
    exact ⟨h1 ▸ rfl, h2 ▸ rfl⟩
  | node tl s p c tr ihl ihr =>
    intro pos l r hw h
    rcases wf_node_iff.mp hw with ⟨hc, hwl, hwr⟩
    by_cases hb : pos < 0 ∨ pos > c
    · rw [split_eval_oob hb] at h
      exact absurd h (by simp)
    by_cases h1 : pos < tl.sub_len
    · rw [split_eval_left hb h1] at h
      cases hrec : split_by_pos fa fb tl pos with
      | error e => rw [hrec] at h; exact absurd h (by simp [Except.map])
      | ok ab =>
        rw [hrec] at h
        simp only [Except.map, Except.ok.injEq, Prod.mk.injEq] at h
        obtain ⟨hab1, hab2⟩ := ihl hwl (hrec.trans (by rw [← Prod.mk.eta (p := ab)]))
        rcases h with ⟨h3, h4⟩
        subst h3
        subst h4
        exact ⟨hab1, wf_updated hab2 hwr⟩
    by_cases h2 : pos > tl.sub_len + s.length
    · rw [split_eval_right hb h1 h2] at h
      cases hrec : split_by_pos fa fb tr (pos - tl.sub_len - s.length) with
      | error e => rw [hrec] at h; exact absurd h (by simp [Except.map])
      | ok ab =>
        rw [hrec] at h
        simp only [Except.map, Except.ok.injEq, Prod.mk.injEq] at h
        obtain ⟨hab1, hab2⟩ := ihr hwr (hrec.trans (by rw [← Prod.mk.eta (p := ab)]))
        rcases h with ⟨h3, h4⟩
        subst h3
        subst h4
        exact ⟨wf_updated hwl hab1, hab2⟩
    by_cases h3 : pos - tl.sub_len = 0
    · rw [split_eval_before hb h1 h2 h3] at h
      simp only [Except.ok.injEq, Prod.mk.injEq] at h
      rcases h with ⟨h5, h6⟩
      subst h5
      subst h6
      exact ⟨hwl, wf_updated wf_nil hwr⟩
    by_cases h4 : pos - tl.sub_len = s.length
    · rw [split_eval_after hb h1 h2 h3 h4] at h
      simp only [Except.ok.injEq, Prod.mk.injEq] at h
      rcases h with ⟨h5, h6⟩
      subst h5
      subst h6
      exact ⟨wf_updated hwl wf_nil, hwr⟩
    · rw [split_eval_inside hb h1 h2 h3 h4] at h
      simp only [Except.ok.injEq, Prod.mk.injEq] at h
      rcases h with ⟨h5, h6⟩
      subst h5
      subst h6
      exact ⟨wf_merge hwl (wf_mkNode _ _), wf_merge (wf_mkNode _ _) hwr⟩

/-- How split_by_pos relates the segment list of the input tree to those of the
two output trees: either the cut is at a segment boundary and the list is merely
partitioned, or one segment is replaced by two clones (with the supplied fresh
ids) whose lengths sum to it. -/
def SplitRel (fa fb : Nat × Nat) (orig L R : List Segment) : Prop :=
  orig = L ++ R ∨
  ∃ A s B o, 0 < o ∧ o < s.length ∧ orig = A ++ s :: B ∧
    L = A ++ [s.clone_with_length o fa.2] ∧
    R = s.clone_with_length (s.length - o) fb.2 :: B

lemma split_master (fa fb : Nat × Nat) :
    ∀ (t : Tree) (pos : Int), t.wf = true → t.pos_lens = true → 0 ≤ pos →
      pos ≤ t.real_len →
    ∃ l r, split_by_pos fa fb t pos = .ok (l, r) ∧ l.wf = true ∧ r.wf = true ∧
      l.pos_lens = true ∧ r.pos_lens = true ∧ l.real_len = pos ∧
      r.real_len = t.real_len - pos ∧ SplitRel fa fb t.inorder l.inorder r.inorder := by
  intro t
  induction t with
  | nil =>
    intro pos hw hp h0 hle
    simp only [real_len_nil] at hle
    have hz : pos = 0 := le_antisymm hle h0
    subst hz
    exact ⟨.nil, .nil, by simp [split_by_pos], rfl, rfl, rfl, rfl, rfl, rfl, Or.inl rfl⟩
  | node tl s p c tr ihl ihr =>
    intro pos hw hp h0 hle
    rcases wf_node_iff.mp hw with ⟨hc, hwl, hwr⟩
    rcases pos_lens_node_iff.mp hp with ⟨hs, hpl, hpr⟩
    have hls : tl.sub_len = tl.real_len := wf_sub_len hwl
    have hln0 : 0 ≤ tl.real_len := pos_lens_real_len_nonneg hpl
    have hrn0 : 0 ≤ tr.real_len := pos_lens_real_len_nonneg hpr
    simp only [real_len_node] at hle
    have hb : ¬(pos < 0 ∨ pos > c) := by
      rw [hc]
      omega
    by_cases h1 : pos < tl.sub_len
    · obtain ⟨la, lb, heq, wla, wlb, pla, plb, rla, rlb, hrel⟩ :=
        ihl pos hwl hpl h0 (le_of_lt (hls ▸ h1))
      refine ⟨la, updated lb s p tr, ?_, wla, wf_updated wlb hwr, pla,
        pos_lens_updated hs plb hpr, rla, ?_, ?_⟩
      · rw [split_eval_left hb h1, heq]
        rfl
      · simp only [real_len_updated, rlb, real_len_node]
        omega
      · simp only [inorder_node, inorder_updated]
        rcases hrel with hrel | ⟨A, s2, B, o, ho1, ho2, hor, hL, hR⟩
        · exact Or.inl (by rw [hrel, List.append_assoc])
        · refine Or.inr ⟨A, s2, B ++ s :: tr.inorder, o, ho1, ho2, ?_, hL, ?_⟩
          · rw [hor]
            simp
          · rw [hR]
            simp
    by_cases h2 : pos > tl.sub_len + s.length
    · have h2R : tl.real_len + s.length < pos := by
        rw [hls] at h2
        omega
      obtain ⟨ra, rb, heq, wra, wrb, pra, prb, rra, rrb, hrel⟩ :=
        ihr (pos - tl.sub_len - s.length) hwr hpr (by omega) (by omega)
      refine ⟨updated tl s p ra, rb, ?_, wf_updated hwl wra, wrb,
        pos_lens_updated hs hpl pra, prb, ?_, ?_, ?_⟩
      · rw [split_eval_right hb h1 h2, heq]
        rfl
      · simp only [real_len_updated, rra]
        omega
      · rw [rrb]
        simp only [real_len_node]
        omega
      · simp only [inorder_node, inorder_updated]
        rcases hrel with hrel | ⟨A, s2, B, o, ho1, ho2, hor, hL, hR⟩
        · rw [hrel]
          exact Or.inl (by simp)
        · refine Or.inr ⟨tl.inorder ++ s :: A, s2, B, o, ho1, ho2, ?_, ?_, hR⟩
          · rw [hor]
            simp
          · rw [hL]
            simp
    by_cases h3 : pos - tl.sub_len = 0
    · refine ⟨tl, updated .nil s p tr, split_eval_before hb h1 h2 h3, hwl,
        wf_updated wf_nil hwr, hpl, pos_lens_updated hs pos_lens_nil hpr, ?_, ?_, ?_⟩
      · omega
      · simp only [real_len_updated, real_len_nil, real_len_node]
        omega
      · exact Or.inl (by simp)
    by_cases h4 : pos - tl.sub_len = s.length
    · refine ⟨updated tl s p .nil, tr, split_eval_after hb h1 h2 h3 h4, wf_updated hwl wf_nil,
        hwr, pos_lens_updated hs hpl pos_lens_nil, hpr, ?_, ?_, ?_⟩
      · simp only [real_len_updated, real_len_nil]
        omega
      · simp only [real_len_node]
        omega
      · exact Or.inl (by simp)
    · have ho1 : 0 < pos - tl.sub_len := by omega
      have ho2 : pos - tl.sub_len < s.length := by omega
      refine ⟨merge tl (mkNode (s.clone_with_length (pos - tl.sub_len) fa.2) fa.1),
        merge (mkNode (s.clone_with_length (s.length - (pos - tl.sub_len)) fb.2) fb.1) tr,
        split_eval_inside hb h1 h2 h3 h4,
        wf_merge hwl (wf_mkNode _ _), wf_merge (wf_mkNode _ _) hwr,
        pos_lens_merge hpl (pos_lens_mkNode ho1 _),
        pos_lens_merge (pos_lens_mkNode (by simpa [Segment.clone_with_length] using ho2) _) hpr,
        ?_, ?_, ?_⟩
      · rw [real_len_merge]
        simp only [mkNode, real_len_node, real_len_nil, Segment.clone_with_length]
        omega
      · rw [real_len_merge]
        simp only [mkNode, real_len_node, real_len_nil, Segment.clone_with_length]
        omega
      · rw [inorder_merge, inorder_merge, inorder_mkNode, inorder_mkNode]
        exact Or.inr ⟨tl.inorder, s, tr.inorder, pos - tl.sub_len, ho1, ho2, rfl, rfl, rfl⟩

/-! ### Cutting a positive-length segment list at a given total length -/

/-- Every segment in the list has positive length. -/
def AllPos (l : List Segment) : Prop := ∀ s ∈ l, 0 < s.length

lemma all_pos_append {a b : List Segment} :
    AllPos (a ++ b) ↔ AllPos a ∧ AllPos b := by
  constructor
  · intro h
    exact ⟨fun s hs => h s (by simp [hs]), fun s hs => h s (by simp [hs])⟩
  · rintro ⟨ha, hb⟩ s hs
    rcases List.mem_append.mp hs with h | h
    · exact ha s h
    · exact hb s h

lemma list_len_nonneg {l : List Segment} (h : AllPos l) : 0 ≤ list_len l := by
  induction l with
  | nil => simp
  | cons s rest ih =>
    have hs := h s (by simp)
    have := ih (fun x hx => h x (by simp [hx]))
    simp only [list_len_cons]
    omega

lemma list_len_zero_nil {l : List Segment} (h : AllPos l) (hz : list_len l = 0) : l = [] := by
  cases l with
  | nil => rfl
  | cons s rest =>
    have hs := h s (by simp)
    have := list_len_nonneg (l := rest) (fun x hx => h x (by simp [hx]))
    simp only [list_len_cons] at hz
    omega

/-- Two decompositions of the same positive-length list at the same total length
coincide. -/
lemma cut_unique : ∀ (A B C D : List Segment), A ++ B = C ++ D → AllPos (A ++ B) →
    list_len A = list_len C → A = C := by
  intro A
  induction A with
  | nil =>
    intro B C D heq hpos hlen
    simp only [List.nil_append] at heq
    have hC : AllPos C := by
      rw [List.nil_append] at hpos
      rw [heq] at hpos
      exact (all_pos_append.mp hpos).1
    have : C = [] := list_len_zero_nil hC (by simp only [list_len_nil] at hlen; omega)
    rw [this]
  | cons a A2 ih =>
    intro B C D heq hpos hlen
    cases C with
    | nil =>
      have ha : 0 < a.length := hpos a (by simp)
      have h2 : 0 ≤ list_len A2 :=
        list_len_nonneg (fun x hx => hpos x (by simp [hx]))
      simp only [list_len_cons, list_len_nil] at hlen
      omega
    | cons c C2 =>
      simp only [List.cons_append, List.cons.injEq] at heq
      rcases heq with ⟨hac, heq2⟩
      subst hac
      simp only [list_len_cons] at hlen
      have h2 : A2 = C2 :=
        ih B C2 D heq2 (fun x hx => hpos x (by simp [List.mem_append] at hx ⊢; tauto))
          (by omega)
      rw [h2]

/-- A cut that falls strictly inside a segment of one decomposition cannot be a
boundary of another decomposition of the same positive-length list. -/
lemma cut_not_inside : ∀ (M1 : List Segment) (x : Segment) (M2 L1 L2 : List Segment),
    L1 ++ L2 = M1 ++ x :: M2 → AllPos (L1 ++ L2) →
    list_len M1 < list_len L1 → list_len L1 < list_len M1 + x.length → False := by
  intro M1
  induction M1 with
  | nil =>
    intro x M2 L1 L2 heq hpos hlt1 hlt2
    simp only [List.nil_append, list_len_nil] at hlt1 hlt2
    cases L1 with
    | nil => simp only [list_len_nil] at hlt1; omega
    | cons a L1b =>
      simp only [List.cons_append, List.nil_append, List.cons.injEq] at heq
      rcases heq with ⟨hax, _⟩
      subst hax
      have h2 : 0 ≤ list_len L1b :=
        list_len_nonneg (fun s hs => hpos s (by simp [hs]))
      simp only [list_len_cons] at hlt2
      omega
  | cons m M1b ih =>
    intro x M2 L1 L2 heq hpos hlt1 hlt2
    cases L1 with
    | nil =>
      have h0 : 0 ≤ list_len (m :: M1b) := by
        rw [List.nil_append] at heq
        rw [List.nil_append, heq] at hpos
        exact list_len_nonneg (all_pos_append.mp hpos).1
      simp only [list_len_nil] at hlt1
      omega
    | cons a L1b =>
      simp only [List.cons_append, List.cons.injEq] at heq
      rcases heq with ⟨ham, heq2⟩
      subst ham
      simp only [list_len_cons] at hlt1 hlt2
      exact ih x M2 L1b L2 heq2
        (fun s hs => hpos s (by simp [List.mem_append] at hs ⊢; tauto))
        (by omega) (by omega)

/-- Splitting at a boundary of the segment list keeps both sides intact
(no clone is created). -/
lemma split_boundary (fa fb : Nat × Nat) {t : Tree} {A B : List Segment}
    (hw : t.wf = true) (hp : t.pos_lens = true) (hin : t.inorder = A ++ B) :
    ∃ l r, split_by_pos fa fb t (list_len A) = .ok (l, r) ∧ l.inorder = A ∧ r.inorder = B ∧
      l.wf = true ∧ r.wf = true ∧ l.pos_lens = true ∧ r.pos_lens = true := by
  have hap : AllPos (A ++ B) := by
    rw [← hin]
    exact pos_lens_iff_inorder.mp hp
  have h0 : 0 ≤ list_len A := list_len_nonneg (all_pos_append.mp hap).1
  have hle : list_len A ≤ t.real_len := by
    rw [real_len_eq_list_len, hin, list_len_append]
    have := list_len_nonneg (all_pos_append.mp hap).2
    omega
  obtain ⟨l, r, heq, wl, wr, pl, pr, rl, rr, hrel⟩ :=
    split_master fa fb t (list_len A) hw hp h0 hle
  have hlen_l : list_len l.inorder = list_len A := by
    rw [← real_len_eq_list_len, rl]
  rcases hrel with hrel | ⟨A2, s2, B2, o, ho1, ho2, hor, hL, hR⟩
  · have hinl : l.inorder = A := by
      apply cut_unique l.inorder r.inorder A B (by rw [← hrel, hin])
        (by rw [← hrel]; exact pos_lens_iff_inorder.mp hp) hlen_l
    have hinr : r.inorder = B := by
      rw [hinl] at hrel
      rw [hin] at hrel
      exact (List.append_cancel_left hrel).symm
    exact ⟨l, r, heq, hinl, hinr, wl, wr, pl, pr⟩
  · exfalso
    have hover : list_len A = list_len A2 + o := by
      rw [← hlen_l, hL]
      simp [Segment.clone_with_length]
    refine cut_not_inside A2 s2 B2 A B ?_ hap ?_ ?_
    · rw [← hin, hor]
    · omega
    · omega

/-! ### Per-base view -/

/-- The per-base view of a segment list: each segment contributes length copies
of its kind (used to state exactly which bases an operation keeps). -/
def kinds_bases : List Segment → List SegKind
  | [] => []
  | s :: rest => List.replicate s.length.toNat s.kind ++ kinds_bases rest

@[simp] lemma kinds_bases_nil : kinds_bases [] = [] := rfl

@[simp] lemma kinds_bases_cons (s : Segment) (l : List Segment) :
    kinds_bases (s :: l) = List.replicate s.length.toNat s.kind ++ kinds_bases l := rfl

lemma kinds_bases_append (a b : List Segment) :
    kinds_bases (a ++ b) = kinds_bases a ++ kinds_bases b := by
  induction a with
  | nil => simp
  | cons s rest ih => simp [ih]

lemma kinds_bases_length {l : List Segment} (h : AllPos l) :
    (kinds_bases l).length = (list_len l).toNat := by
  induction l with
  | nil => simp
  | cons s rest ih =>
    have hs := h s (by simp)
    have hrest : AllPos rest := fun x hx => h x (by simp [hx])
    have h0 := list_len_nonneg hrest
    simp only [kinds_bases_cons, List.length_append, List.length_replicate,
      ih hrest, list_len_cons]
    omega

/-- split_by_pos partitions the bases exactly: the per-base views of the two
halves concatenate to the original. -/
lemma split_rel_bases {fa fb : Nat × Nat} {O L R : List Segment}
    (hrel : SplitRel fa fb O L R) :
    kinds_bases O = kinds_bases L ++ kinds_bases R := by
  rcases hrel with hrel | ⟨A, s, B, o, ho1, ho2, hor, hL, hR⟩
  · rw [hrel, kinds_bases_append]
  · rw [hor, hL, hR]
    simp only [kinds_bases_append, kinds_bases_cons, kinds_bases_nil,
      Segment.clone_with_length, List.append_nil]
    have htn : s.length.toNat = o.toNat + (s.length - o).toNat := by omega
    rw [htn, List.replicate_add]
    simp only [List.append_assoc]

/-! ### merge_nodes, iter_segments -/

lemma inorder_merge_nodes (prios : Nat → Nat) :
    ∀ (l : List Segment) (k : Nat) (acc : Tree),
      (merge_nodes prios k acc l).inorder = acc.inorder ++ l := by
  intro l
  induction l with
  | nil => intro k acc; simp [merge_nodes]
  | cons s rest ih =>
    intro k acc
    rw [merge_nodes, ih, inorder_merge, inorder_mkNode]
    simp

lemma wf_merge_nodes (prios : Nat → Nat) :
    ∀ (l : List Segment) (k : Nat) (acc : Tree), acc.wf = true →
      (merge_nodes prios k acc l).wf = true := by
  intro l
  induction l with
  | nil => intro k acc h; simpa [merge_nodes] using h
  | cons s rest ih =>
    intro k acc h
    rw [merge_nodes]
    exact ih _ _ (wf_merge h (wf_mkNode _ _))

lemma pos_lens_merge_nodes (prios : Nat → Nat) :
    ∀ (l : List Segment) (k : Nat) (acc : Tree), acc.pos_lens = true → AllPos l →
      (merge_nodes prios k acc l).pos_lens = true := by
  intro l
  induction l with
  | nil => intro k acc h _; simpa [merge_nodes] using h
  | cons s rest ih =>
    intro k acc h hall
    rw [merge_nodes]
    exact ih _ _ (pos_lens_merge h (pos_lens_mkNode (hall s (by simp)) _))
      (fun x hx => hall x (by simp [hx]))

lemma iter_tree_fst : ∀ (t : Tree) (acc : Int),
    (iter_tree t acc).map (fun x => x.1) = t.inorder := by
  intro t
  induction t with
  | nil => intro acc; simp [iter_tree]
  | node l s p c r ihl ihr =>
    intro acc
    rw [iter_tree]
    simp only [List.map_append, List.map_cons, ihl, ihr, inorder_node]

/-! ### rightmost / leftmost / find lemmas -/

lemma rightmost_seg_eq_getLast : ∀ (t : Tree), t.rightmost_seg = t.inorder.getLast? := by
  intro t
  induction t with
  | nil => rfl
  | node l s p c r ihl ihr =>
    rw [Tree.rightmost_seg, ihr, inorder_node, List.getLast?_append_cons]
    cases hr : r.inorder with
    | nil => rfl
    | cons x xs =>
      rw [List.getLast?_cons_cons]
      cases hg : (x :: xs).getLast? with
      | none =>
        exfalso
        exact List.cons_ne_nil x xs (List.getLast?_eq_none_iff.mp hg)
      | some y => rfl

lemma leftmost_seg_eq_head : ∀ (t : Tree), t.leftmost_seg = t.inorder.head? := by
  intro t
  induction t with
  | nil => rfl
  | node l s p c r ihl ihr =>
    rw [Tree.leftmost_seg, ihl, inorder_node]
    cases hl : l.inorder with
    | nil => simp [hl]
    | cons x xs => simp [hl]

lemma validate_base_ok {pos n : Int} (h0 : 0 ≤ pos) (hlt : pos < n) :
    validate_position pos n .base = .ok () := by
  rw [validate_position, if_neg]
  omega

lemma validate_gap_ok {pos n : Int} (h0 : 0 ≤ pos) (hle : pos ≤ n) :
    validate_position pos n .gap = .ok () := by
  rw [validate_position, if_neg]
  omega

lemma find_segment_eval {g : Genome} {pos : Int} {cs : CoordinateSystem}
    (hv : validate_position pos g.length cs = .ok ()) :
    g.find_segment_at_position pos cs =
      if pos = g.length then g.handle_if_last_position else find_loop g.root pos 0 := by
  rw [Genome.find_segment_at_position, hv]

lemma find_loop_eval_left {tl : Tree} {s : Segment} {p : Nat} {c : Int} {tr : Tree}
    {pos pre : Int} (h : pos < pre + tl.sub_len) :
    find_loop (.node tl s p c tr) pos pre = find_loop tl pos pre := by
  simp only [find_loop]
  rw [if_pos h]

lemma find_loop_eval_right {tl : Tree} {s : Segment} {p : Nat} {c : Int} {tr : Tree}
    {pos pre : Int} (h1 : ¬pos < pre + tl.sub_len) (h2 : pos ≥ pre + tl.sub_len + s.length) :
    find_loop (.node tl s p c tr) pos pre = find_loop tr pos (pre + tl.sub_len + s.length) := by
  simp only [find_loop]
  rw [if_neg h1, if_pos h2]

lemma find_loop_eval_here {tl : Tree} {s : Segment} {p : Nat} {c : Int} {tr : Tree}
    {pos pre : Int} (h1 : ¬pos < pre + tl.sub_len) (h2 : ¬pos ≥ pre + tl.sub_len + s.length) :
    find_loop (.node tl s p c tr) pos pre =
      .ok (s, pos - (pre + tl.sub_len), pre + tl.sub_len, pre + tl.sub_len + s.length) := by
  simp only [find_loop]
  rw [if_neg h1, if_neg h2]

lemma find_loop_ok : ∀ (t : Tree) (pos pre : Int), t.wf = true → t.pos_lens = true →
    pre ≤ pos → pos < pre + t.real_len →
    ∃ A seg B, t.inorder = A ++ seg :: B ∧
      find_loop t pos pre =
        .ok (seg, pos - (pre + list_len A), pre + list_len A, pre + list_len A + seg.length) ∧
      pre + list_len A ≤ pos ∧ pos < pre + list_len A + seg.length := by
  intro t
  induction t with
  | nil =>
    intro pos pre hw hp h1 h2
    simp only [real_len_nil] at h2
    omega
  | node tl s p c tr ihl ihr =>
    intro pos pre hw hp h1 h2
    rcases wf_node_iff.mp hw with ⟨hc, hwl, hwr⟩
    rcases pos_lens_node_iff.mp hp with ⟨hs, hpl, hpr⟩
    have hls : tl.sub_len = tl.real_len := wf_sub_len hwl
    have hln0 : 0 ≤ tl.real_len := pos_lens_real_len_nonneg hpl
    have hrn0 : 0 ≤ tr.real_len := pos_lens_real_len_nonneg hpr
    simp only [real_len_node] at h2
    by_cases hA : pos < pre + tl.sub_len
    · obtain ⟨A, seg, B, hin, heq, hb1, hb2⟩ :=
        ihl pos pre hwl hpl h1 (by rw [hls] at hA; omega)
      exact ⟨A, seg, B ++ s :: tr.inorder, by rw [inorder_node, hin]; simp,
        by rw [find_loop_eval_left hA]; exact heq, hb1, hb2⟩
    by_cases hB : pos ≥ pre + tl.sub_len + s.length
    · obtain ⟨A, seg, B, hin, heq, hb1, hb2⟩ :=
        ihr pos (pre + tl.sub_len + s.length) hwr hpr hB (by rw [hls]; omega)
      have hlenA : pre + list_len (tl.inorder ++ s :: A) =
          pre + tl.sub_len + s.length + list_len A := by
        rw [list_len_append, list_len_cons, hls, real_len_eq_list_len]
        ring
      refine ⟨tl.inorder ++ s :: A, seg, B, by rw [inorder_node, hin]; simp, ?_, ?_, ?_⟩
      · rw [find_loop_eval_right hA hB, heq, hlenA]
      · omega
      · omega
    · refine ⟨tl.inorder, s, tr.inorder, rfl, ?_, ?_, ?_⟩
      · rw [find_loop_eval_here hA hB, ← real_len_eq_list_len, ← hls]
      · rw [← real_len_eq_list_len, ← hls]
        omega
      · rw [← real_len_eq_list_len, ← hls]
        omega

/-- find_segment_at_position at a BASE position: returns the segment whose span
[list_len A, list_len A + seg.length) contains pos, where A is the list of
segments before it. -/
lemma find_segment_base {g : Genome} {pos : Int} (hw : g.root.wf = true)
    (hp : g.root.pos_lens = true) (h0 : 0 ≤ pos) (hlt : pos < g.length) :
    ∃ A seg B, g.root.inorder = A ++ seg :: B ∧
      g.find_segment_at_position pos .base =
        .ok (seg, pos - list_len A, list_len A, list_len A + seg.length) ∧
      list_len A ≤ pos ∧ pos < list_len A + seg.length := by
  have hv : validate_position pos g.length .base = .ok () := validate_base_ok h0 hlt
  have hlen : g.length = g.root.real_len := wf_sub_len hw
  obtain ⟨A, seg, B, hin, heq, hb1, hb2⟩ :=
    find_loop_ok g.root pos 0 hw hp h0 (by rw [← hlen]; omega)
  refine ⟨A, seg, B, hin, ?_, by omega, by omega⟩
  rw [find_segment_eval hv, if_neg (by omega)]
  simpa using heq

/-- find_segment_at_position at a GAP position strictly below length behaves like
the BASE lookup. -/
lemma find_segment_gap_lt {g : Genome} {pos : Int} (hw : g.root.wf = true)
    (hp : g.root.pos_lens = true) (h0 : 0 ≤ pos) (hlt : pos < g.length) :
    ∃ A seg B, g.root.inorder = A ++ seg :: B ∧
      g.find_segment_at_position pos .gap =
        .ok (seg, pos - list_len A, list_len A, list_len A + seg.length) ∧
      list_len A ≤ pos ∧ pos < list_len A + seg.length := by
  have hv : validate_position pos g.length .gap = .ok () := validate_gap_ok h0 (le_of_lt hlt)
  have hlen : g.length = g.root.real_len := wf_sub_len hw
  obtain ⟨A, seg, B, hin, heq, hb1, hb2⟩ :=
    find_loop_ok g.root pos 0 hw hp h0 (by rw [← hlen]; omega)
  refine ⟨A, seg, B, hin, ?_, by omega, by omega⟩
  rw [find_segment_eval hv, if_neg (by omega)]
  simpa using heq

/-- find_segment_at_position at GAP position length (the sentinel case): the
rightmost segment, with offset equal to its full length. -/
lemma find_segment_gap_end {g : Genome} {seg : Segment} (hw : g.root.wf = true)
    (hp : g.root.pos_lens = true) (hrm : g.root.rightmost_seg = some seg) :
    g.find_segment_at_position g.length .gap =
      .ok (seg, seg.length, g.length - seg.length, g.length) := by
  have hlen : g.length = g.root.real_len := wf_sub_len hw
  have h0 : 0 ≤ g.length := by
    rw [hlen]
    exact pos_lens_real_len_nonneg hp
  rw [find_segment_eval (validate_gap_ok h0 le_rfl), if_pos rfl,
    Genome.handle_if_last_position, hrm]

/-- The in-order decomposition behind the sentinel case: the rightmost segment is
the last of the list and everything before it sums to length - its length. -/
lemma sentinel_decomp {g : Genome} {seg : Segment} (hw : g.root.wf = true)
    (hrm : g.root.rightmost_seg = some seg) :
    ∃ A, g.root.inorder = A ++ [seg] ∧ list_len A = g.length - seg.length := by
  rw [rightmost_seg_eq_getLast] at hrm
  have hne : g.root.inorder ≠ [] := by
    intro h
    rw [h] at hrm
    exact Option.noConfusion hrm
  have hd := List.dropLast_append_getLast hne
  have hg : g.root.inorder.getLast hne = seg := by
    rw [List.getLast?_eq_getLast _ hne] at hrm
    exact Option.some.injEq _ _ ▸ hrm.symm ▸ rfl
  refine ⟨g.root.inorder.dropLast, by rw [← hg, hd], ?_⟩
  have : list_len g.root.inorder = list_len g.root.inorder.dropLast + seg.length := by
    conv_lhs => rw [← hd]
    rw [list_len_append, hg, list_len_cons, list_len_nil]
    ring
  have hlen : g.length = g.root.real_len := wf_sub_len hw
  rw [hlen, real_len_eq_list_len]
  omega

/-! ### Coalescing lemmas -/

/-- The (variant, length) view of a segment, forgetting its identity. -/
def vl (s : Segment) : SegKind × Int := (s.kind, s.length)

/-- No two adjacent segments of the list are both non-coding. -/
def NoAdjNC : List Segment → Prop
  | [] => True
  | [_] => True
  | a :: b :: rest => ¬(a.is_noncoding = true ∧ b.is_noncoding = true) ∧ NoAdjNC (b :: rest)

lemma clone_is_noncoding (s : Segment) (n : Int) (i : Nat) :
    (s.clone_with_length n i).is_noncoding = s.is_noncoding := rfl

lemma coalesce_list_head (sids : Nat → Nat) :
    ∀ (k : Nat) (b : Segment) (rest : List Segment),
      ∃ c cs, coalesce_list sids k (b :: rest) = c :: cs ∧
        c.is_noncoding = b.is_noncoding := by
  intro k b rest
  induction rest generalizing k b with
  | nil => exact ⟨b, [], by rw [coalesce_list], rfl⟩
  | cons b2 rest2 ih =>
    rw [coalesce_list]
    by_cases h : b.is_noncoding && b2.is_noncoding
    · rw [if_pos h]
      obtain ⟨c, cs, heq, hkind⟩ := ih (k + 1) (b.clone_with_length (b.length + b2.length) (sids k))
      exact ⟨c, cs, heq, by rw [hkind, clone_is_noncoding]⟩
    · rw [if_neg h]
      exact ⟨b, _, rfl, rfl⟩

lemma coalesce_list_no_adj (sids : Nat → Nat) (k : Nat) (l : List Segment) :
    NoAdjNC (coalesce_list sids k l) := by
  induction k, l using coalesce_list.induct sids with
  | case1 k => rw [coalesce_list]; trivial
  | case2 k s => rw [coalesce_list]; trivial
  | case3 k a b rest h ih =>
    rw [coalesce_list, if_pos h]
    exact ih
  | case4 k a b rest h ih =>
    rw [coalesce_list, if_neg h]
    obtain ⟨c, cs, heq, hkind⟩ := coalesce_list_head sids (k + 1) b rest
    rw [heq]
    refine ⟨?_, heq ▸ ih⟩
    rintro ⟨ha, hc⟩
    rw [hkind] at hc
    exact h (by rw [ha, hc]; rfl)

lemma coalesce_list_fixpoint (sids : Nat → Nat) :
    ∀ (l : List Segment) (k : Nat), NoAdjNC l → coalesce_list sids k l = l := by
  intro l
  induction l with
  | nil => intro k _; rw [coalesce_list]
  | cons a rest ih =>
    intro k h
    match rest with
    | [] => rw [coalesce_list]
    | b :: rest2 =>
      rw [coalesce_list]
      rcases h with ⟨hab, htail⟩
      rw [if_neg (by simpa using hab)]
      rw [ih (k + 1) htail]

lemma coalesce_all_inorder (g : Genome) (sids prios : Nat → Nat) :
    (g.coalesce_all sids prios).root.inorder = coalesce_list sids 0 g.root.inorder := by
  rw [Genome.coalesce_all]
  cases hit : g.iter_segments with
  | nil =>
    have hin : g.root.inorder = [] := by
      rw [← iter_tree_fst g.root 0, ← Genome.iter_segments, hit]
      rfl
    rw [hin]
    rw [coalesce_list]
    rfl
  | cons x rest =>
    have hin : (x :: rest).map (fun t => t.1) = g.root.inorder := by
      rw [← hit, Genome.iter_segments, iter_tree_fst]
    simp only [inorder_merge_nodes, inorder_nil, List.nil_append, hin]

/-! ### Claims -/

/-- C10: Constructing an Inversion with start_pos == end_pos, or with any
negative position, raises ValueError at construction time, before any genome is
consulted; every successfully constructed Inversion has
0 <= start_pos < end_pos after the auto-swap. -/
theorem C10_inversion_init (s e : Int) :
    ((s = e ∨ s < 0 ∨ e < 0) → Inversion.mk_checked s e = .error .valueError) ∧
    (∀ inv, Inversion.mk_checked s e = .ok inv →
      0 ≤ inv.start_pos ∧ inv.start_pos < inv.end_pos) := by
  constructor
  · intro h
    rw [Inversion.mk_checked]
    rcases h with h | h | h
    · by_cases hneg : s < 0 ∨ e < 0
      · rw [if_pos hneg]
      · rw [if_neg hneg, if_pos h]
    · rw [if_pos (Or.inl h)]
    · rw [if_pos (Or.inr h)]
  · intro inv h
    rw [Inversion.mk_checked] at h
    by_cases hneg : s < 0 ∨ e < 0
    · rw [if_pos hneg] at h
      exact absurd h (by simp)
    rw [if_neg hneg] at h
    by_cases heq : s = e
    · rw [if_pos heq] at h
      exact absurd h (by simp)
    rw [if_neg heq] at h
    by_cases hgt : s > e
    · rw [if_pos hgt] at h
      have : inv = { start_pos := e, end_pos := s, reverted := true } := by
        exact (Except.ok.injEq _ _).mp h.symm
      rw [this]
      constructor <;> [skip; skip] <;> simp <;> omega
    · rw [if_neg hgt] at h
      have : inv = { start_pos := s, end_pos := e, reverted := false } := by
        exact (Except.ok.injEq _ _).mp h.symm
      rw [this]
      constructor <;> simp <;> omega

/-- C10 witness: concrete instances of both conjuncts. -/
theorem C10_inversion_init_witness :
    Inversion.mk_checked 5 5 = .error .valueError ∧
    (0 ≤ (Inversion.mk (2 : Int) 9 true).start_pos ∧
      (Inversion.mk (2 : Int) 9 true).start_pos < (Inversion.mk (2 : Int) 9 true).end_pos) :=
  ⟨(C10_inversion_init 5 5).1 (Or.inl rfl),
    (C10_inversion_init 9 2).2 (Inversion.mk 2 9 true) (by rfl)⟩

/-- C7 counterexample: on a circular genome of length 5, the GAP lookup at
position 5 (= length) succeeds and returns the sentinel, so the call does not
succeed only for linear genomes. -/
theorem C7_counterexample :
    (Genome.mk true (mkNode { kind := .noncoding, length := 5, sid := 0 } 0)).circular = true ∧
    (Genome.mk true (mkNode { kind := .noncoding, length := 5, sid := 0 } 0)).find_segment_at_position
        5 .gap =
      .ok ({ kind := .noncoding, length := 5, sid := 0 }, 5, 0, 5) := by
  constructor
  · rfl
  · rfl

/-- C7 (amended): find_segment_at_position(length, GAP) on a non-empty genome
returns the last segment with offset equal to that segment's length,
seg_start = length - that segment's length, and seg_end = length — for linear
and circular genomes alike, since the validator accepts GAP position length
regardless of circularity. -/
theorem C7_gap_end_sentinel (g : Genome) (seg : Segment) (hw : g.root.wf = true)
    (hp : g.root.pos_lens = true) (hrm : g.root.rightmost_seg = some seg) :
    g.find_segment_at_position g.length .gap =
      .ok (seg, seg.length, g.length - seg.length, g.length) :=
  find_segment_gap_end hw hp hrm

/-- C7 witness: the sentinel on a concrete non-empty circular genome. -/
theorem C7_gap_end_sentinel_witness :
    (Genome.mk true (mkNode { kind := .noncoding, length := 7, sid := 3 } 0)).find_segment_at_position
        7 .gap =
      .ok ({ kind := .noncoding, length := 7, sid := 3 }, 7, 0, 7) :=
  C7_gap_end_sentinel (Genome.mk true (mkNode { kind := .noncoding, length := 7, sid := 3 } 0))
    { kind := .noncoding, length := 7, sid := 3 } (by decide) (by decide) (by rfl)

/-- C9: coalesce_all is idempotent: running it twice (with arbitrary fresh-id
and priority draws each time) yields the same ordered (variant, length) sequence
as running it once.  In fact the second run reproduces the segment list exactly,
since the first run leaves no adjacent non-coding pair to merge. -/
theorem C9_coalesce_idempotent (g : Genome) (s1 p1 s2 p2 : Nat → Nat) :
    (((g.coalesce_all s1 p1).coalesce_all s2 p2).root.inorder).map vl =
      ((g.coalesce_all s1 p1).root.inorder).map vl := by
  rw [coalesce_all_inorder, coalesce_all_inorder,
    coalesce_list_fixpoint s2 _ 0 (coalesce_list_no_adj s1 0 g.root.inorder)]

/-- C3: for every cache-correct tree with positive segment lengths and every pos
with 0 <= pos <= root.sub_len, split_by_pos succeeds and merging the two parts
yields the original ordered (variant, length) sequence, except that when pos
falls strictly inside a segment that segment appears as two adjacent segments of
the same variant whose lengths sum to the original; the total length is always
preserved. -/
theorem C3_split_merge_round_trip (fa fb : Nat × Nat) (t : Tree) (pos : Int)
    (hw : t.wf = true) (hp : t.pos_lens = true) (h0 : 0 ≤ pos) (hle : pos ≤ t.sub_len) :
    ∃ l r, split_by_pos fa fb t pos = .ok (l, r) ∧
      (merge l r).real_len = t.real_len ∧
      ((merge l r).inorder.map vl = t.inorder.map vl ∨
        ∃ A s B o, 0 < o ∧ o < s.length ∧ t.inorder.map vl = A ++ vl s :: B ∧
          (merge l r).inorder.map vl = A ++ (s.kind, o) :: (s.kind, s.length - o) :: B) := by
  obtain ⟨l, r, heq, wl, wr, pl, pr, rl, rr, hrel⟩ :=
    split_master fa fb t pos hw hp h0 (by rw [← wf_sub_len hw]; exact hle)
  refine ⟨l, r, heq, by rw [real_len_merge, rl, rr]; ring, ?_⟩
  rcases hrel with hrel | ⟨A, s, B, o, ho1, ho2, hor, hL, hR⟩
  · exact Or.inl (by rw [inorder_merge, ← hrel])
  · refine Or.inr ⟨A.map vl, s, B.map vl, o, ho1, ho2, by rw [hor]; simp, ?_⟩
    rw [inorder_merge, hL, hR]
    simp [vl, Segment.clone_with_length]

/-- C3 witness: a concrete split strictly inside a segment. -/
theorem C3_split_merge_round_trip_witness :
    ∃ l r, split_by_pos (1, 101) (2, 102)
        (mkNode { kind := .noncoding, length := 10, sid := 0 } 7) 4 = .ok (l, r) ∧
      (merge l r).real_len =
        (mkNode { kind := .noncoding, length := 10, sid := 0 } 7).real_len ∧
      ((merge l r).inorder.map vl =
          (mkNode { kind := .noncoding, length := 10, sid := 0 } 7).inorder.map vl ∨
        ∃ A s B o, 0 < o ∧ o < s.length ∧
          (mkNode { kind := .noncoding, length := 10, sid := 0 } 7).inorder.map vl =
            A ++ vl s :: B ∧
          (merge l r).inorder.map vl = A ++ (s.kind, o) :: (s.kind, s.length - o) :: B) :=
  C3_split_merge_round_trip (1, 101) (2, 102)
    (mkNode { kind := .noncoding, length := 10, sid := 0 } 7) 4
    (by decide) (by decide) (by decide) (by decide)

/-- delete_core on in-range positions succeeds and removes exactly the bases of
[start, stop), at the per-base level. -/
lemma delete_core_spec {g : Genome} {start stop : Int} (f1 f2 f3 f4 : Nat × Nat)
    (hw : g.root.wf = true) (hp : g.root.pos_lens = true)
    (h0 : 0 ≤ start) (h1 : start ≤ stop) (h2 : stop ≤ g.length) :
    ∃ g', delete_core g start stop f1 f2 f3 f4 = .ok g' ∧ g'.circular = g.circular ∧
      g'.root.wf = true ∧ g'.root.pos_lens = true ∧
      g'.length = g.length - (stop - start) ∧
      kinds_bases g'.root.inorder =
        List.take start.toNat (kinds_bases g.root.inorder) ++
          List.drop stop.toNat (kinds_bases g.root.inorder) := by
  have hlen : g.length = g.root.real_len := wf_sub_len hw
  have hap : AllPos g.root.inorder := pos_lens_iff_inorder.mp hp
  obtain ⟨l, r, hs1, wl, wr, pl, pr, rl, rr, hrel1⟩ :=
    split_master f1 f2 g.root start hw hp h0 (by omega)
  obtain ⟨m, r2, hs2, wm, wr2, pm, pr2, rm, rr2, hrel2⟩ :=
    split_master f3 f4 r (stop - start) wr pr (by omega) (by omega)
  rw [rr] at rr2
  refine ⟨{ g with root := merge l r2 }, ?_, rfl, wf_merge wl wr2, pos_lens_merge pl pr2,
    ?_, ?_⟩
  · simp only [delete_core, hs1, hs2]
  · show (merge l r2).sub_len = _
    rw [wf_sub_len (wf_merge wl wr2), real_len_merge, rl, rr2]
    omega
  · have hbase1 : kinds_bases g.root.inorder =
        kinds_bases l.inorder ++ kinds_bases r.inorder := split_rel_bases hrel1
    have hbase2 : kinds_bases r.inorder =
        kinds_bases m.inorder ++ kinds_bases r2.inorder := split_rel_bases hrel2
    have hlenl : (kinds_bases l.inorder).length = start.toNat := by
      rw [kinds_bases_length (pos_lens_iff_inorder.mp pl), ← real_len_eq_list_len, rl]
    have hlenm : (kinds_bases m.inorder).length = (stop - start).toNat := by
      rw [kinds_bases_length (pos_lens_iff_inorder.mp pm), ← real_len_eq_list_len, rm]
    show kinds_bases (merge l r2).inorder = _
    rw [inorder_merge, kinds_bases_append, hbase1, hbase2]
    have htake : List.take start.toNat
        (kinds_bases l.inorder ++ (kinds_bases m.inorder ++ kinds_bases r2.inorder)) =
        kinds_bases l.inorder := List.take_left' hlenl
    have hdrop : List.drop stop.toNat
        ((kinds_bases l.inorder ++ kinds_bases m.inorder) ++ kinds_bases r2.inorder) =
        kinds_bases r2.inorder := by
      refine List.drop_left' ?_
      rw [List.length_append, hlenl, hlenm]
      omega
    rw [htake, ← List.append_assoc, hdrop]

lemma delete_range_eval {g : Genome} {start stop : Int} {fs : Nat → Nat × Nat}
    (hv1 : validate_position start g.length .base = .ok ())
    (hv2 : validate_position stop g.length .gap = .ok ()) :
    g.delete_range start stop fs =
      if start = stop then .ok g
      else if start > stop then
        if g.circular then
          match delete_core g start g.length (fs 0) (fs 1) (fs 2) (fs 3) with
          | .error e => .error e
          | .ok g1 => delete_core g1 0 stop (fs 4) (fs 5) (fs 6) (fs 7)
        else .error .valueError
      else delete_core g start stop (fs 4) (fs 5) (fs 6) (fs 7) := by
  rw [Genome.delete_range, hv1, hv2]

/-- C4: delete_range(start, end) with start validated as BASE and end as GAP:
no-op when start == end; when start > end it succeeds only on a circular genome,
deleting [start, length) and then [0, end) so the length shrinks by
(length - start) + end, and raises ValueError on a linear genome; when
start < end it removes exactly the bases of [start, end). -/
theorem C4_delete_range (g : Genome) (start stop : Int) (fs : Nat → Nat × Nat)
    (hw : g.root.wf = true) (hp : g.root.pos_lens = true)
    (h0 : 0 ≤ start) (h1 : start < g.length) :
    (start = stop → g.delete_range start stop fs = .ok g) ∧
    (0 ≤ stop → stop < start → g.circular = true →
      ∃ g', g.delete_range start stop fs = .ok g' ∧
        g'.length = g.length - ((g.length - start) + stop) ∧
        kinds_bases g'.root.inorder =
          List.drop stop.toNat (List.take start.toNat (kinds_bases g.root.inorder))) ∧
    (0 ≤ stop → stop < start → g.circular = false →
      g.delete_range start stop fs = .error .valueError) ∧
    (start < stop → stop ≤ g.length →
      ∃ g', g.delete_range start stop fs = .ok g' ∧
        g'.length = g.length - (stop - start) ∧
        kinds_bases g'.root.inorder =
          List.take start.toNat (kinds_bases g.root.inorder) ++
            List.drop stop.toNat (kinds_bases g.root.inorder)) := by
  have hv1 : validate_position start g.length .base = .ok () := validate_base_ok h0 h1
  refine ⟨?_, ?_, ?_, ?_⟩
  · intro heq
    subst heq
    rw [delete_range_eval hv1 (validate_gap_ok h0 (le_of_lt h1)), if_pos rfl]
  · intro hb hlt hcirc
    have hv2 : validate_position stop g.length .gap = .ok () :=
      validate_gap_ok hb (by omega)
    obtain ⟨g1, hc1, hcirc1, hw1, hp1, hl1, hb1⟩ :=
      delete_core_spec (fs 0) (fs 1) (fs 2) (fs 3) hw hp h0 (le_of_lt h1) le_rfl
    have hg1len : g1.length = start := by omega
    obtain ⟨g2, hc2, hcirc2, hw2, hp2, hl2, hb2⟩ :=
      delete_core_spec (g := g1) (fs 4) (fs 5) (fs 6) (fs 7) hw1 hp1 le_rfl hb (by omega)
    refine ⟨g2, ?_, by omega, ?_⟩
    · rw [delete_range_eval hv1 hv2, if_neg (by omega), if_pos (by omega), if_pos hcirc]
      simp only [hc1, hc2]
    · rw [hb2, hb1]
      have hdg : List.drop g.length.toNat (kinds_bases g.root.inorder) = [] := by
        refine List.drop_eq_nil_of_le ?_
        rw [kinds_bases_length (pos_lens_iff_inorder.mp hp), ← real_len_eq_list_len,
          ← wf_sub_len hw]
        exact le_rfl
      rw [hdg, List.append_nil]
      simp
  · intro hb hlt hcirc
    have hv2 : validate_position stop g.length .gap = .ok () :=
      validate_gap_ok hb (by omega)
    rw [delete_range_eval hv1 hv2, if_neg (by omega), if_pos (by omega), hcirc]
    simp
  · intro hlt hle
    have hv2 : validate_position stop g.length .gap = .ok () :=
      validate_gap_ok (by omega) hle
    obtain ⟨g2, hc2, hcirc2, hw2, hp2, hl2, hb2⟩ :=
      delete_core_spec (fs 4) (fs 5) (fs 6) (fs 7) hw hp h0 (le_of_lt hlt) hle
    refine ⟨g2, ?_, hl2, hb2⟩
    rw [delete_range_eval hv1 hv2, if_neg (by omega), if_neg (by omega), hc2]

/-- C4 witness: a concrete wrap-around delete on a circular genome of length 10,
removing [7, 10) and [0, 2). -/
theorem C4_delete_range_witness :
    ∃ g', (Genome.mk true (mkNode { kind := .noncoding, length := 10, sid := 0 } 5)).delete_range
        7 2 (fun k => (k, 50 + k)) = .ok g' ∧
      g'.length = (Genome.mk true (mkNode { kind := .noncoding, length := 10, sid := 0 } 5)).length -
        (((Genome.mk true (mkNode { kind := .noncoding, length := 10, sid := 0 } 5)).length - 7) + 2) ∧
      kinds_bases g'.root.inorder =
        List.drop (2 : Int).toNat (List.take (7 : Int).toNat
          (kinds_bases (Genome.mk true (mkNode { kind := .noncoding, length := 10, sid := 0 } 5)).root.inorder)) :=
  (C4_delete_range (Genome.mk true (mkNode { kind := .noncoding, length := 10, sid := 0 } 5))
    7 2 (fun k => (k, 50 + k)) (by decide) (by decide) (by decide) (by decide)).2.1
    (by decide) (by decide) rfl

/-! ### C8: extend_segment_at -/

lemma find_ok_valid {g : Genome} {pos : Int} {cs : CoordinateSystem}
    {r : Segment × Int × Int × Int} (h : g.find_segment_at_position pos cs = .ok r) :
    validate_position pos g.length cs = .ok () := by
  rw [Genome.find_segment_at_position] at h
  cases hv : validate_position pos g.length cs with
  | error e => rw [hv] at h; exact absurd h (by simp)
  | ok u => cases u; rfl

lemma validate_gap_bounds {pos n : Int} (h : validate_position pos n .gap = .ok ()) :
    0 ≤ pos ∧ pos ≤ n := by
  rw [validate_position] at h
  by_cases hc : pos < 0 ∨ pos > n
  · rw [if_pos hc] at h
    exact absurd h (by simp)
  · omega

lemma validate_base_bounds {pos n : Int} (h : validate_position pos n .base = .ok ()) :
    0 ≤ pos ∧ pos < n := by
  rw [validate_position] at h
  by_cases hc : pos < 0 ∨ pos ≥ n
  · rw [if_pos hc] at h
    exact absurd h (by simp)
  · omega

lemma is_noncoding_iff {s : Segment} : s.is_noncoding = true ↔ s.kind = .noncoding := by
  rw [Segment.is_noncoding]
  cases s.kind with
  | noncoding => simp
  | coding d => simp

lemma inorder_singleton {t : Tree} {s : Segment} (h : t.inorder = [s]) :
    ∃ p c, t = .node .nil s p c .nil := by
  cases t with
  | nil => exact absurd h (by simp)
  | node l s0 p c r =>
    rw [inorder_node] at h
    cases hl : l.inorder with
    | nil =>
      rw [hl, List.nil_append] at h
      have h1 : s0 = s ∧ r.inorder = [] := by
        rw [List.cons.injEq] at h
        exact ⟨h.1, h.2⟩
      rcases h1 with ⟨hs, hr⟩
      subst hs
      rw [inorder_eq_nil_iff.mp hl, inorder_eq_nil_iff.mp hr]
      exact ⟨p, c, rfl⟩
    | cons x xs =>
      rw [hl] at h
      rcases List.cons.injEq .. ▸ h with ⟨hx, hrest⟩
      exfalso
      have := congrArg List.length hrest
      simp at this

/-- Any successful GAP lookup decomposes the segment list as A ++ seg :: B with
seg_start = list_len A (covering both the descend and the sentinel case). -/
lemma find_gap_ok_decomp {g : Genome} {pos : Int} {found : Segment × Int × Int × Int}
    (hw : g.root.wf = true) (hp : g.root.pos_lens = true)
    (hf : g.find_segment_at_position pos .gap = .ok found) :
    ∃ A B, g.root.inorder = A ++ found.1 :: B ∧ list_len A = found.2.2.1 := by
  have hv := find_ok_valid hf
  obtain ⟨h0, hle⟩ := validate_gap_bounds hv
  by_cases hend : pos = g.length
  · subst hend
    rw [find_segment_eval hv, if_pos rfl, Genome.handle_if_last_position] at hf
    cases hrm : g.root.rightmost_seg with
    | none => rw [hrm] at hf; exact absurd hf (by simp)
    | some seg =>
      simp only [hrm] at hf
      have hfound : found = (seg, seg.length, g.length - seg.length, g.length) :=
        ((Except.ok.injEq _ _).mp hf).symm
      obtain ⟨A, hin, hlen⟩ := sentinel_decomp hw hrm
      exact ⟨A, [], by rw [hin, hfound], by rw [hfound, hlen]⟩
  · obtain ⟨A, seg, B, hin, heq, hb1, hb2⟩ :=
      find_segment_gap_lt hw hp h0 (by omega)
    rw [heq] at hf
    have hfound : found = (seg, pos - list_len A, list_len A, list_len A + seg.length) :=
      ((Except.ok.injEq _ _).mp hf).symm
    exact ⟨A, B, by rw [hin, hfound], by rw [hfound]⟩

/-- C8: extend_segment_at raises ValueError whenever delta < 0 (before anything
else), raises TypeError when the segment at GAP position pos is coding, and
otherwise replaces that segment with a clone of length old + delta, leaving the
rest of the (variant, length) sequence unchanged. -/
theorem C8_extend_segment_at (g : Genome) (pos delta : Int) (fs : Nat → Nat × Nat) :
    (delta < 0 → g.extend_segment_at pos delta fs = .error .valueError) ∧
    (∀ found, 0 ≤ delta → g.find_segment_at_position pos .gap = .ok found →
      found.1.is_noncoding = false → g.extend_segment_at pos delta fs = .error .typeError) ∧
    (∀ found, 0 ≤ delta → g.root.wf = true → g.root.pos_lens = true →
      g.find_segment_at_position pos .gap = .ok found → found.1.is_noncoding = true →
      ∃ g', g.extend_segment_at pos delta fs = .ok g' ∧
        ∃ A B, g.root.inorder.map vl = A ++ vl found.1 :: B ∧
          g'.root.inorder.map vl = A ++ (found.1.kind, found.1.length + delta) :: B) := by
  refine ⟨?_, ?_, ?_⟩
  · intro hd
    rw [Genome.extend_segment_at, if_pos hd]
  · intro found hd hf hnc
    have hv := find_ok_valid hf
    rw [Genome.extend_segment_at, if_neg (by omega)]
    simp only [hv, hf, hnc]
    simp
  · intro found hd hw hp hf hnc
    have hv := find_ok_valid hf
    obtain ⟨A, B, hin, hstart⟩ := find_gap_ok_decomp hw hp hf
    obtain ⟨l, bc, hs1, hinl, hinbc, wl, wbc, pl, pbc⟩ :=
      split_boundary (fs 0) (fs 1) hw hp hin
    have hlen1 : found.1.length = list_len [found.1] := by simp
    obtain ⟨m, r2, hs2, hinm, hinr2, wm, wr2, pm, pr2⟩ :=
      split_boundary (fs 2) (fs 3) wbc pbc (A := [found.1]) (B := B)
        (by rw [hinbc]; rfl)
    obtain ⟨mp, mc, hm⟩ := inorder_singleton hinm
    have hs1a : split_by_pos (fs 0) (fs 1) g.root found.2.2.1 = .ok (l, bc) := by
      rw [← hstart]
      exact hs1
    have hs2a : split_by_pos (fs 2) (fs 3) bc found.1.length = .ok (m, r2) := by
      rw [hlen1]
      exact hs2
    refine ⟨{ g with root := merge (merge l (updated .nil
        (found.1.clone_with_length (found.1.length + delta) (fs 4).2) mp .nil)) r2 },
      ?_, A.map vl, B.map vl, by rw [hin]; simp, ?_⟩
    · rw [Genome.extend_segment_at, if_neg (by omega)]
      simp only [hv, hf]
      rw [if_neg (by rw [hnc]; simp)]
      simp only [hs1a, hs2a, hm]
    · rw [inorder_merge, inorder_merge, hinl, inorder_updated, inorder_nil, hinr2]
      simp [vl, Segment.clone_with_length]

/-- A concrete three-segment genome [NonCoding(10), Coding(10), NonCoding(10)]
with correct caches, used by witnesses. -/
def witness_genome : Genome :=
  Genome.mk false
    (Tree.node (mkNode { kind := .noncoding, length := 10, sid := 0 } 9)
      { kind := .coding .forward, length := 10, sid := 1 } 4 30
      (mkNode { kind := .noncoding, length := 10, sid := 2 } 8))

/-- C8 witness: concretely extending the first non-coding segment of
[NonCoding(10), Coding(10), NonCoding(10)] at GAP position 3 by 7. -/
theorem C8_extend_segment_at_witness :
    ∃ g', witness_genome.extend_segment_at 3 7 (fun k => (k, 90 + k)) = .ok g' ∧
      ∃ A B, witness_genome.root.inorder.map vl =
          A ++ vl { kind := .noncoding, length := 10, sid := 0 } :: B ∧
        g'.root.inorder.map vl = A ++ (SegKind.noncoding, (10 : Int) + 7) :: B :=
  (C8_extend_segment_at witness_genome 3 7 (fun k => (k, 90 + k))).2.2
    ({ kind := .noncoding, length := 10, sid := 0 }, 3, 0, 10)
    (by decide) (by decide) (by decide) (by rfl) (by decide)

/-! ### C5: insert_at_gap -/

lemma list_len_pos {l : List Segment} (h : AllPos l) (hne : l ≠ []) : 0 < list_len l := by
  cases l with
  | nil => exact absurd rfl hne
  | cons s rest =>
    have hs := h s (by simp)
    have := list_len_nonneg (l := rest) (fun x hx => h x (by simp [hx]))
    simp only [list_len_cons]
    omega

/-- Cutting a (variant, length) list at offset p from the left: the list-level
counterpart of what split_by_pos does (a segment appears cut in two when p falls
strictly inside it). -/
def vl_split (p : Int) : List (SegKind × Int) → List (SegKind × Int) × List (SegKind × Int)
  | [] => ([], [])
  | (k, n) :: rest =>
    if p ≤ 0 then ([], (k, n) :: rest)
    else if p < n then ([(k, p)], (k, n - p) :: rest)
    else if p = n then ([(k, n)], rest)
    else
      ((k, n) :: (vl_split (p - n) rest).1, (vl_split (p - n) rest).2)

lemma vl_split_boundary :
    ∀ (A B : List Segment), AllPos (A ++ B) →
      vl_split (list_len A) ((A ++ B).map vl) = (A.map vl, B.map vl) := by
  intro A
  induction A with
  | nil =>
    intro B hpos
    cases B with
    | nil => rfl
    | cons b bs =>
      simp only [List.nil_append, list_len_nil, List.map_cons]
      rw [vl_split.eq_def]
      simp [vl]
  | cons a A2 ih =>
    intro B hpos
    have ha : 0 < a.length := hpos a (by simp)
    have hA2 : AllPos (A2 ++ B) := fun x hx => hpos x (by simp [List.mem_append] at hx ⊢; tauto)
    have hA2n : 0 ≤ list_len A2 := list_len_nonneg (all_pos_append.mp hA2).1
    simp only [List.cons_append, List.map_cons, list_len_cons]
    rw [vl_split.eq_def]
    simp only [vl]
    rw [if_neg (by omega), if_neg (by omega)]
    by_cases hz : A2 = []
    · subst hz
      simp only [list_len_nil]
      rw [if_pos (by omega)]
      simp only [List.nil_append, List.map_nil]
    · have hpos2 : 0 < list_len A2 := list_len_pos (all_pos_append.mp hA2).1 hz
      rw [if_neg (by omega)]
      have := ih B hA2
      have harg : a.length + list_len A2 - a.length = list_len A2 := by ring
      rw [harg, this]

lemma vl_split_inside :
    ∀ (A : List Segment) (s : Segment) (B : List Segment) (o : Int),
      AllPos (A ++ s :: B) → 0 < o → o < s.length →
      vl_split (list_len A + o) ((A ++ s :: B).map vl) =
        (A.map vl ++ [(s.kind, o)], (s.kind, s.length - o) :: B.map vl) := by
  intro A
  induction A with
  | nil =>
    intro s B o hpos ho1 ho2
    simp only [List.nil_append, list_len_nil, List.map_cons, zero_add]
    rw [vl_split.eq_def]
    simp only [vl]
    rw [if_neg (by omega), if_pos (by omega)]
    rfl
  | cons a A2 ih =>
    intro s B o hpos ho1 ho2
    have ha : 0 < a.length := hpos a (by simp)
    have hA2 : AllPos (A2 ++ s :: B) :=
      fun x hx => hpos x (by simp [List.mem_append] at hx ⊢; tauto)
    have hA2n : 0 ≤ list_len A2 := list_len_nonneg (all_pos_append.mp hA2).1
    simp only [List.cons_append, List.map_cons, list_len_cons]
    rw [vl_split.eq_def]
    simp only [vl]
    rw [if_neg (by omega), if_neg (by omega), if_neg (by omega)]
    have harg : a.length + list_len A2 + o - a.length = list_len A2 + o := by ring
    rw [harg, ih s B o hA2 ho1 ho2]

/-- The two output trees of split_by_pos, viewed as (variant, length) lists, are
exactly the vl_split cut of the input list at the cut position. -/
lemma split_rel_vl {fa fb : Nat × Nat} {O L R : List Segment} {pos : Int}
    (hrel : SplitRel fa fb O L R) (hpos : AllPos O) (hlen : list_len L = pos) :
    vl_split pos (O.map vl) = (L.map vl, R.map vl) := by
  rcases hrel with hrel | ⟨A, s, B, o, ho1, ho2, hor, hL, hR⟩
  · subst hrel
    rw [← hlen]
    exact vl_split_boundary L R hpos
  · subst hor
    have hlenL : list_len A + o = pos := by
      rw [← hlen, hL]
      simp [Segment.clone_with_length]
    rw [← hlenL, vl_split_inside A s B o hpos ho1 ho2, hL, hR]
    simp [vl, Segment.clone_with_length]

/-- Modelled from the spec: if the (variant, length) list ending at the gap ends
in a non-coding segment, absorb its length into the inserted block. -/
def spec_left (k : Int) (L : List (SegKind × Int)) : List (SegKind × Int) × Int :=
  match L.getLast? with
  | some (SegKind.noncoding, n) => (L.dropLast, n + k)
  | _ => (L, k)

/-- Modelled from the spec: if the (variant, length) list starting at the gap
starts with a non-coding segment, absorb its length into the inserted block. -/
def spec_right (k : Int) (R : List (SegKind × Int)) : List (SegKind × Int) × Int :=
  match R.head? with
  | some (SegKind.noncoding, n) => (R.tail, k + n)
  | _ => (R, k)

/-- Modelled from the spec: the effect of insert_at_gap on the ordered
(variant, length) sequence.  Cut the sequence at the gap; absorb a non-coding
segment ending at the gap and a non-coding segment starting at the gap into the
inserted block; emit the single combined non-coding block between the remains. -/
def spec_insert (pos k : Int) (l : List (SegKind × Int)) : List (SegKind × Int) :=
  let s1 := spec_left k (vl_split pos l).1
  let s2 := spec_right s1.2 (vl_split pos l).2
  s1.1 ++ (SegKind.noncoding, s2.2) :: s2.1

lemma eq_dropLast_append {l : List Segment} {x : Segment} (h : l.getLast? = some x) :
    l = l.dropLast ++ [x] := by
  have hne : l ≠ [] := by
    intro hn
    rw [hn] at h
    exact Option.noConfusion h
  have hg : l.getLast hne = x := by
    rw [List.getLast?_eq_getLast _ hne] at h
    exact (Option.some.injEq _ _).mp h
  rw [← hg]
  exact (List.dropLast_append_getLast hne).symm

lemma eq_head_cons {l : List Segment} {x : Segment} (h : l.head? = some x) :
    l = x :: l.tail := by
  cases l with
  | nil => exact absurd h (by simp)
  | cons a as =>
    simp only [List.head?_cons, Option.some.injEq] at h
    rw [h]
    rfl

lemma not_noncoding_kind {s : Segment} (h : s.is_noncoding = false) :
    ∃ d, s.kind = .coding d := by
  cases hk : s.kind with
  | noncoding => rw [Segment.is_noncoding, hk] at h; exact absurd h (by simp)
  | coding d => exact ⟨d, rfl⟩

/-- insert_at_gap on a valid gap position with a (positive-length) non-coding
segment: succeeds, keeps the invariants, grows the genome by exactly the
segment's length, and realises spec_insert on the (variant, length) sequence. -/
lemma insert_at_gap_spec {g : Genome} {pos : Int} {segment : Segment} (fs : Nat → Nat × Nat)
    (hw : g.root.wf = true) (hp : g.root.pos_lens = true)
    (hnc : segment.is_noncoding = true) (hk : 0 < segment.length)
    (h0 : 0 ≤ pos) (hle : pos ≤ g.length) :
    ∃ g', g.insert_at_gap pos segment fs = .ok g' ∧ g'.circular = g.circular ∧
      g'.root.wf = true ∧ g'.root.pos_lens = true ∧
      g'.length = g.length + segment.length ∧
      g'.root.inorder.map vl = spec_insert pos segment.length (g.root.inorder.map vl) := by
  have hlen : g.length = g.root.real_len := wf_sub_len hw
  have hap : AllPos g.root.inorder := pos_lens_iff_inorder.mp hp
  obtain ⟨l0, r0, hs0, wl0, wr0, pl0, pr0, rl0, rr0, hrel0⟩ :=
    split_master (fs 0) (fs 1) g.root pos hw hp h0 (by omega)
  have hL0 : list_len l0.inorder = pos := by
    rw [← real_len_eq_list_len, rl0]
  have hvl : vl_split pos (g.root.inorder.map vl) = (l0.inorder.map vl, r0.inorder.map vl) :=
    split_rel_vl hrel0 hap hL0
  have hkind : segment.kind = SegKind.noncoding := is_noncoding_iff.mp hnc
  -- left coalescing step
  have left_step : ∃ l1 seg1 p1,
      insert_left_coalesce pos segment fs l0 (segment, (fs 2).1) = .ok (l1, (seg1, p1)) ∧
      l1.wf = true ∧ l1.pos_lens = true ∧ seg1.kind = SegKind.noncoding ∧
      0 < seg1.length ∧ l1.real_len + seg1.length = l0.real_len + segment.length ∧
      spec_left segment.length (l0.inorder.map vl) = (l1.inorder.map vl, seg1.length) := by
    cases hrm : l0.rightmost_seg with
    | none =>
      have hnil : l0.inorder.getLast? = none := by
        rw [← rightmost_seg_eq_getLast]
        exact hrm
      refine ⟨l0, segment, (fs 2).1, ?_, wl0, pl0, hkind, hk, by omega, ?_⟩
      · simp [insert_left_coalesce, hrm]
      · rw [spec_left, List.getLast?_map, hnil]
        rfl
    | some rm =>
      have hlast2 : l0.inorder.getLast? = some rm := by
        rw [← rightmost_seg_eq_getLast]
        exact hrm
      have hlast : l0.inorder = l0.inorder.dropLast ++ [rm] := eq_dropLast_append hlast2
      have hrmmem : rm ∈ l0.inorder := by
        rw [hlast]
        simp
      have hrmlen : 0 < rm.length := pos_lens_iff_inorder.mp pl0 rm hrmmem
      have hglast : (l0.inorder.map vl).getLast? = some (rm.kind, rm.length) := by
        rw [List.getLast?_map, hlast2]
        rfl
      cases hrmnc : rm.is_noncoding with
      | true =>
        have hrmk : rm.kind = SegKind.noncoding := is_noncoding_iff.mp hrmnc
        have hlenDL : list_len l0.inorder.dropLast = pos - rm.length := by
          have h2 := congrArg list_len hlast
          rw [list_len_append, list_len_cons, list_len_nil, hL0] at h2
          omega
        obtain ⟨la, ra, hsa, hina, hinra, wa, wra, pa, pra⟩ :=
          split_boundary (fs 4) (fs 5) wl0 pl0 hlast
        have hsa2 : split_by_pos (fs 4) (fs 5) l0 (pos - rm.length) = .ok (la, ra) := by
          rw [← hlenDL]
          exact hsa
        refine ⟨la, rm.clone_with_length (rm.length + segment.length) (fs 3).2, (fs 3).1,
          ?_, wa, pa, by rw [Segment.clone_with_length, hrmk], ?_, ?_, ?_⟩
        · simp [insert_left_coalesce, hrm, hrmnc, hsa2]
        · simp only [Segment.clone_with_length]
          omega
        · rw [real_len_eq_list_len la, hina, hlenDL]
          simp only [Segment.clone_with_length]
          rw [real_len_eq_list_len l0, hL0]
          omega
        · rw [spec_left, hglast, hrmk, hina, ← List.map_dropLast, Segment.clone_with_length]
      | false =>
        obtain ⟨d, hd⟩ := not_noncoding_kind hrmnc
        refine ⟨l0, segment, (fs 2).1, ?_, wl0, pl0, hkind, hk, by omega, ?_⟩
        · simp [insert_left_coalesce, hrm, hrmnc]
        · rw [spec_left, hglast, hd]
  obtain ⟨l1, seg1, p1, hstep1, w1, pl1, kind1, len1, hsum1, hpair1⟩ := left_step
  -- right coalescing step
  have right_step : ∃ r1 seg2 p2,
      insert_right_coalesce fs r0 (seg1, p1) = .ok (r1, (seg2, p2)) ∧
      r1.wf = true ∧ r1.pos_lens = true ∧ seg2.kind = SegKind.noncoding ∧
      0 < seg2.length ∧ r1.real_len + seg2.length = r0.real_len + seg1.length ∧
      spec_right seg1.length (r0.inorder.map vl) = (r1.inorder.map vl, seg2.length) := by
    cases hlm : r0.leftmost_seg with
    | none =>
      have hnil : r0.inorder.head? = none := by
        rw [← leftmost_seg_eq_head]
        exact hlm
      refine ⟨r0, seg1, p1, ?_, wr0, pr0, kind1, len1, by omega, ?_⟩
      · simp [insert_right_coalesce, hlm]
      · rw [spec_right, List.head?_map, hnil]
        rfl
    | some lm =>
      have hhead : r0.inorder.head? = some lm := by
        rw [← leftmost_seg_eq_head]
        exact hlm
      have hhd : r0.inorder = lm :: r0.inorder.tail := eq_head_cons hhead
      have hlmmem : lm ∈ r0.inorder := by
        rw [hhd]
        simp
      have hlmlen : 0 < lm.length := pos_lens_iff_inorder.mp pr0 lm hlmmem
      have hghead : (r0.inorder.map vl).head? = some (lm.kind, lm.length) := by
        rw [List.head?_map, hhead]
        rfl
      cases hlmnc : lm.is_noncoding with
      | true =>
        have hlmk : lm.kind = SegKind.noncoding := is_noncoding_iff.mp hlmnc
        have hlenlm : list_len [lm] = lm.length := by simp
        obtain ⟨ma, rb, hsb, hinma, hinrb, wma, wrb, pma, prb⟩ :=
          split_boundary (fs 7) (fs 8) wr0 pr0 (A := [lm]) (B := r0.inorder.tail)
            (by (conv_lhs => rw [hhd]); rfl)
        have hsb2 : split_by_pos (fs 7) (fs 8) r0 lm.length = .ok (ma, rb) := by
          rw [← hlenlm]
          exact hsb
        refine ⟨rb, lm.clone_with_length (seg1.length + lm.length) (fs 6).2, (fs 6).1,
          ?_, wrb, prb, by rw [Segment.clone_with_length, hlmk], ?_, ?_, ?_⟩
        · simp [insert_right_coalesce, hlm, hlmnc, hsb2]
        · simp only [Segment.clone_with_length]
          omega
        · rw [real_len_eq_list_len rb, hinrb]
          simp only [Segment.clone_with_length]
          have h2 := congrArg list_len hhd
          rw [list_len_cons] at h2
          rw [real_len_eq_list_len r0]
          omega
        · rw [spec_right, hghead, hlmk, hinrb, ← List.map_tail, Segment.clone_with_length]
      | false =>
        obtain ⟨d, hd⟩ := not_noncoding_kind hlmnc
        refine ⟨r0, seg1, p1, ?_, wr0, pr0, kind1, len1, by omega, ?_⟩
        · simp [insert_right_coalesce, hlm, hlmnc]
        · rw [spec_right, hghead, hd]
  obtain ⟨r1, seg2, p2, hstep2, w2, pr1, kind2, len2, hsum2, hpair2⟩ := right_step
  refine ⟨{ g with root := merge (merge l1 (mkNode seg2 p2)) r1 }, ?_, rfl,
    wf_merge (wf_merge w1 (wf_mkNode _ _)) w2,
    pos_lens_merge (pos_lens_merge pl1 (pos_lens_mkNode len2 _)) pr1, ?_, ?_⟩
  · rw [Genome.insert_at_gap, if_neg (by rw [hnc]; simp)]
    simp only [validate_gap_ok h0 hle, hs0, hstep1, hstep2]
  · show (merge (merge l1 (mkNode seg2 p2)) r1).sub_len = _
    rw [wf_sub_len (wf_merge (wf_merge w1 (wf_mkNode _ _)) w2), real_len_merge,
      real_len_merge]
    rw [mkNode]
    simp only [real_len_node, real_len_nil]
    omega
  · show (merge (merge l1 (mkNode seg2 p2)) r1).inorder.map vl = _
    rw [inorder_merge, inorder_merge, inorder_mkNode]
    rw [spec_insert]
    simp only [hvl, hpair1, hpair2]
    simp [vl, kind2]

/-- C5: insert_at_gap raises TypeError (leaving the genome untouched) when the
segment is coding; on a non-coding segment of length k at a valid GAP position
it succeeds, increases the genome length by exactly k, and realises the
spec_insert recipe: the inserted block absorbs a non-coding segment ending at
the gap and a non-coding segment starting at the gap, leaving a single combined
non-coding block (no adjacent non-coding pair) at the insertion site. -/
theorem C5_insert_at_gap (g : Genome) (pos : Int) (segment : Segment) (fs : Nat → Nat × Nat) :
    (segment.is_noncoding = false → g.insert_at_gap pos segment fs = .error .typeError) ∧
    (segment.is_noncoding = true → 0 < segment.length → g.root.wf = true →
      g.root.pos_lens = true → 0 ≤ pos → pos ≤ g.length →
      ∃ g', g.insert_at_gap pos segment fs = .ok g' ∧
        g'.length = g.length + segment.length ∧
        g'.root.inorder.map vl = spec_insert pos segment.length (g.root.inorder.map vl)) := by
  constructor
  · intro h
    rw [Genome.insert_at_gap, if_pos h]
  · intro hnc hk hw hp h0 hle
    obtain ⟨g', hok, _, _, _, hlen, hspec⟩ := insert_at_gap_spec fs hw hp hnc hk h0 hle
    exact ⟨g', hok, hlen, hspec⟩

/-- C5 witness: inserting NonCoding(5) at gap 10 of
[NonCoding(10), Coding(10), NonCoding(10)] (the left neighbour coalesces). -/
theorem C5_insert_at_gap_witness :
    ∃ g', witness_genome.insert_at_gap 10 { kind := .noncoding, length := 5, sid := 77 }
        (fun k => (k, 80 + k)) = .ok g' ∧
      g'.length = witness_genome.length + ({ kind := .noncoding, length := 5, sid := 77 } : Segment).length ∧
      g'.root.inorder.map vl =
        spec_insert 10 ({ kind := .noncoding, length := 5, sid := 77 } : Segment).length
          (witness_genome.root.inorder.map vl) :=
  (C5_insert_at_gap witness_genome 10 { kind := .noncoding, length := 5, sid := 77 }
    (fun k => (k, 80 + k))).2 (by decide) (by decide) (by decide) (by decide)
    (by decide) (by decide)

/-- C2 counterexample: on Genome([NonCoding(50)]) the wrap-around Duplication
(start 30, end 20, insert at 40) computes length 39, not the claimed
length - (start - end - 1) = 41; applying it grows the genome to 89, not 91. -/
theorem C2_counterexample :
    (Duplication.mk 30 20 40).get_length
        (Genome.mk false (mkNode { kind := .noncoding, length := 50, sid := 0 } 3)) = 39 ∧
    (Genome.mk false (mkNode { kind := .noncoding, length := 50, sid := 0 } 3)).length -
        ((30 : Int) - 20 - 1) = 41 ∧
    (39 : Int) ≠ 41 ∧
    ∃ g', (Duplication.mk 30 20 40).apply
        (Genome.mk false (mkNode { kind := .noncoding, length := 50, sid := 0 } 3))
        (fun k => (k, 60 + k)) 77 = .ok g' ∧
      g'.length = 89 ∧
      g'.length ≠ (Genome.mk false (mkNode { kind := .noncoding, length := 50, sid := 0 } 3)).length + 41 := by
  refine ⟨by decide, by decide, by decide, ?_⟩
  obtain ⟨g', hok, _, _, _, hlen, _⟩ :=
    @insert_at_gap_spec (Genome.mk false (mkNode { kind := .noncoding, length := 50, sid := 0 } 3))
      40 { kind := .noncoding, length := 39, sid := 77 }
      (fun k => (k, 60 + k)) (by decide) (by decide) (by decide) (by decide)
      (by decide) (by decide)

  refine ⟨g', hok, by rw [hlen]; decide, by rw [hlen]; decide⟩

/-- C2 (amended): Duplication.apply inserts, via insert_at_gap (which may
coalesce it with adjacent non-coding segments), one new NonCoding segment at
insertion_pos whose length is end - start + 1 when start <= end, and
length - (start - end + 1) when the source region wraps (start > end); the
genome grows by exactly that amount. -/
theorem C2_duplication_apply_amended (d : Duplication) (g : Genome) (fs : Nat → Nat × Nat)
    (sid : Nat) (hw : g.root.wf = true) (hp : g.root.pos_lens = true)
    (hlen : 0 < d.get_length g) (h0 : 0 ≤ d.insertion_pos) (hle : d.insertion_pos ≤ g.length) :
    ∃ g', d.apply g fs sid = .ok g' ∧
      g'.length = g.length + (if d.start_pos ≤ d.end_pos then d.end_pos - d.start_pos + 1
        else g.length - (d.start_pos - d.end_pos + 1)) ∧
      g'.root.inorder.map vl =
        spec_insert d.insertion_pos (d.get_length g) (g.root.inorder.map vl) := by
  obtain ⟨g', hok, _, _, _, hglen, hspec⟩ :=
    @insert_at_gap_spec g d.insertion_pos
      { kind := .noncoding, length := d.get_length g, sid := sid }
      fs hw hp rfl hlen h0 hle
  exact ⟨g', hok, by rw [hglen, Duplication.get_length], hspec⟩

/-- C2 witness: a concrete non-wrapping duplication [10, 20] inserted at 25 into
[NonCoding(10), Coding(10), NonCoding(10)]. -/
theorem C2_duplication_apply_amended_witness :
    ∃ g', (Duplication.mk 10 20 25).apply witness_genome (fun k => (k, 70 + k)) 99 = .ok g' ∧
      g'.length = witness_genome.length +
        (if (Duplication.mk 10 20 25).start_pos ≤ (Duplication.mk 10 20 25).end_pos
          then (Duplication.mk 10 20 25).end_pos - (Duplication.mk 10 20 25).start_pos + 1
          else witness_genome.length -
            ((Duplication.mk 10 20 25).start_pos - (Duplication.mk 10 20 25).end_pos + 1)) ∧
      g'.root.inorder.map vl =
        spec_insert (Duplication.mk 10 20 25).insertion_pos
          ((Duplication.mk 10 20 25).get_length witness_genome)
          (witness_genome.root.inorder.map vl) :=
  C2_duplication_apply_amended (Duplication.mk 10 20 25) witness_genome
    (fun k => (k, 70 + k)) 99 (by decide) (by decide) (by decide) (by decide) (by decide)

/-! ### C6: deletion neutrality scenario -/

lemma two_elem_decomp {A B : List Segment} {seg a b : Segment}
    (h : A ++ seg :: B = [a, b]) :
    (A = [] ∧ seg = a ∧ B = [b]) ∨ (A = [a] ∧ seg = b ∧ B = []) := by
  cases A with
  | nil =>
    simp only [List.nil_append, List.cons.injEq] at h
    exact Or.inl ⟨rfl, h.1, h.2⟩
  | cons x xs =>
    cases xs with
    | nil =>
      simp only [List.cons_append, List.nil_append, List.cons.injEq] at h
      exact Or.inr ⟨by rw [h.1], h.2.1, h.2.2⟩
    | cons y ys =>
      exfalso
      have := congrArg List.length h
      simp at this

lemma one_elem_decomp {A B : List Segment} {seg m : Segment}
    (h : A ++ seg :: B = [m]) : A = [] ∧ seg = m ∧ B = [] := by
  cases A with
  | nil =>
    simp only [List.nil_append, List.cons.injEq] at h
    exact ⟨rfl, h.1, h.2⟩
  | cons x xs =>
    exfalso
    have := congrArg List.length h
    simp at this

lemma coalesce_list_all_pos (sids : Nat → Nat) (k : Nat) (l : List Segment) :
    AllPos l → AllPos (coalesce_list sids k l) := by
  induction k, l using coalesce_list.induct sids with
  | case1 k => intro h; rw [coalesce_list]; exact h
  | case2 k s => intro h; rw [coalesce_list]; exact h
  | case3 k a b rest hcond ih =>
    intro h
    rw [coalesce_list, if_pos hcond]
    refine ih ?_
    intro s hs
    rcases List.mem_cons.mp hs with hh | hh
    · subst hh
      have ha := h a (by simp)
      have hb := h b (by simp)
      simp only [Segment.clone_with_length]
      omega
    · exact h s (by simp [hh])
  | case4 k a b rest hcond ih =>
    intro h
    rw [coalesce_list, if_neg hcond]
    intro s hs
    rcases List.mem_cons.mp hs with hh | hh
    · subst hh
      exact h s (by simp)
    · exact ih (fun x hx => h x (by simp [List.mem_cons] at hx ⊢; tauto)) s hh

lemma coalesce_all_wf (g : Genome) (sids prios : Nat → Nat) :
    (g.coalesce_all sids prios).root.wf = true := by
  rw [Genome.coalesce_all]
  cases g.iter_segments with
  | nil => rfl
  | cons x rest => exact wf_merge_nodes prios _ 0 .nil rfl

lemma coalesce_all_pos_lens (g : Genome) (sids prios : Nat → Nat)
    (hp : g.root.pos_lens = true) :
    (g.coalesce_all sids prios).root.pos_lens = true := by
  have hall : AllPos (coalesce_list sids 0 g.root.inorder) :=
    coalesce_list_all_pos sids 0 _ (pos_lens_iff_inorder.mp hp)
  rw [Genome.coalesce_all]
  cases hit : g.iter_segments with
  | nil => rfl
  | cons x rest =>
    refine pos_lens_merge_nodes prios _ 0 .nil rfl ?_
    have hin : (x :: rest).map (fun t => t.1) = g.root.inorder := by
      rw [← hit, Genome.iter_segments, iter_tree_fst]
    rw [hin]
    exact hall

lemma coalesce_all_circular (g : Genome) (sids prios : Nat → Nat) :
    (g.coalesce_all sids prios).circular = g.circular := by
  rw [Genome.coalesce_all]
  cases g.iter_segments with
  | nil => rfl
  | cons x rest => rfl

lemma is_deleted_eval {g : Genome} {sp ep : Int} {rs re : Segment × Int × Int × Int}
    (hfs : g.find_segment_at_position sp .base = .ok rs)
    (hfe : g.find_segment_at_position ep .gap = .ok re)
    (hnc : rs.1.is_noncoding = true) :
    Deletion.is_deleted_seg_neutral g sp ep = .ok (rs.1.sid == re.1.sid) := by
  rw [Deletion.is_deleted_seg_neutral]
  simp only [hfs, hfe]
  rw [if_neg (by rw [hnc]; simp)]

/-- The first of the two distinct NonCoding(50) instances of scenario E. -/
def segA : Segment := { kind := .noncoding, length := 50, sid := 0 }

/-- The second of the two distinct NonCoding(50) instances of scenario E. -/
def segB : Segment := { kind := .noncoding, length := 50, sid := 1 }

/-- Scenario E's genome: Genome([NonCoding(50), NonCoding(50)]) built from two
distinct instances (pr supplies the construction priorities). -/
def scenario_genome (pr : Nat → Nat) : Genome :=
  Genome.init [segA, segB] false pr

/-- C6: on the genome [NonCoding(50), NonCoding(50)] (two distinct instances),
every Deletion whose inclusive span [cs, ce] covers bases of both instances is
not neutral; after coalesce_all (any fresh draws) the same Deletion is
neutral. -/
theorem C6_deletion_neutrality (pr sids prios : Nat → Nat) (cs ce : Int)
    (h0 : 0 ≤ cs) (h1 : cs < 50) (h2 : 50 ≤ ce) (h3 : ce ≤ 99) :
    (Deletion.mk cs ce).is_neutral (scenario_genome pr) = .ok false ∧
    (Deletion.mk cs ce).is_neutral ((scenario_genome pr).coalesce_all sids prios) =
      .ok true := by
  have hin : (scenario_genome pr).root.inorder = [segA, segB] :=
    (inorder_merge_nodes pr [segA, segB] 0 .nil).trans rfl
  have hw : (scenario_genome pr).root.wf = true := wf_merge_nodes pr _ 0 .nil rfl
  have hallp : AllPos [segA, segB] := by
    intro s hs
    simp only [List.mem_cons, List.not_mem_nil, or_false] at hs
    rcases hs with h | h <;> subst h <;> decide
  have hp : (scenario_genome pr).root.pos_lens = true :=
    pos_lens_merge_nodes pr _ 0 .nil rfl hallp
  have hlen : (scenario_genome pr).length = 100 := by
    rw [Genome.length, wf_sub_len hw, real_len_eq_list_len, hin]
    decide
  have hiv : ∀ g : Genome, (Deletion.mk cs ce).intervals_for_del g = [(cs, ce)] := by
    intro g
    rw [Deletion.intervals_for_del, if_neg]
    show ¬cs > ce
    omega
  have e0 : list_len ([] : List Segment) = 0 := rfl
  have eA : list_len [segA] = 50 := by decide
  have eLa : segA.length = 50 := rfl
  have eLb : segB.length = 50 := rfl
  constructor
  · -- before coalescing: the two lookups hit distinct instances
    obtain ⟨A, seg, B, hdec, heqf, hb1, hb2⟩ := find_segment_base hw hp h0 (by omega)
    rcases two_elem_decomp (hdec.symm.trans hin) with ⟨hA, hseg, hB⟩ | ⟨hA, hseg, hB⟩
    swap
    · exfalso
      subst hA
      subst hseg
      omega
    subst hA
    subst hseg
    obtain ⟨A2, seg2, B2, hdec2, heqf2, hc1, hc2⟩ :=
      find_segment_gap_lt hw hp (by omega) (by omega : ce < (scenario_genome pr).length)
    rcases two_elem_decomp (hdec2.symm.trans hin) with ⟨hA2, hseg2, hB2⟩ | ⟨hA2, hseg2, hB2⟩
    · exfalso
      subst hA2
      subst hseg2
      omega
    subst hA2
    subst hseg2
    simp only [Deletion.is_neutral, hiv]
    rw [is_deleted_eval heqf heqf2 rfl]
    rfl
  · -- after coalescing: both lookups hit the single merged segment
    have hin2 : ((scenario_genome pr).coalesce_all sids prios).root.inorder =
        [segA.clone_with_length (segA.length + segB.length) (sids 0)] := by
      rw [coalesce_all_inorder, hin, coalesce_list, if_pos (by decide), coalesce_list]
    have hw2 := coalesce_all_wf (scenario_genome pr) sids prios
    have hp2 := coalesce_all_pos_lens (scenario_genome pr) sids prios hp
    have hlen2 : ((scenario_genome pr).coalesce_all sids prios).length = 100 := by
      rw [Genome.length, wf_sub_len hw2, real_len_eq_list_len, hin2]
      simp [list_len, Segment.clone_with_length, segA, segB]
    obtain ⟨A, seg, B, hdec, heqf, hb1, hb2⟩ := find_segment_base hw2 hp2 h0 (by omega)
    obtain ⟨hA, hseg, hB⟩ := one_elem_decomp (hdec.symm.trans hin2)
    subst hA
    subst hseg
    obtain ⟨A2, seg2, B2, hdec2, heqf2, hc1, hc2⟩ :=
      find_segment_gap_lt hw2 hp2 (by omega)
        (by omega : ce < ((scenario_genome pr).coalesce_all sids prios).length)
    obtain ⟨hA2, hseg2, hB2⟩ := one_elem_decomp (hdec2.symm.trans hin2)
    subst hA2
    subst hseg2
    simp only [Deletion.is_neutral, hiv]
    rw [is_deleted_eval heqf heqf2 rfl]
    simp

/-- C6 witness: a concrete span [40, 60] covering bases of both instances. -/
theorem C6_deletion_neutrality_witness :
    (Deletion.mk 40 60).is_neutral (scenario_genome (fun k => k)) = .ok false ∧
    (Deletion.mk 40 60).is_neutral
      ((scenario_genome (fun k => k)).coalesce_all (fun k => 200 + k) (fun k => k)) =
      .ok true :=
  C6_deletion_neutrality (fun k => k) (fun k => 200 + k) (fun k => k) 40 60
    (by decide) (by decide) (by decide) (by decide)

/-! ### C1: the length invariant across all public operations -/

lemma insert_left_coalesce_wf {pos : Int} {segment : Segment} {fs : Nat → Nat × Nat}
    {l0 : Tree} {mid0 : Segment × Nat} {out : Tree × (Segment × Nat)}
    (hw : l0.wf = true) (h : insert_left_coalesce pos segment fs l0 mid0 = .ok out) :
    out.1.wf = true := by
  rw [insert_left_coalesce] at h
  cases hrm : l0.rightmost_seg with
  | none =>
    simp only [hrm] at h
    rw [← (Except.ok.injEq _ _).mp h]
    exact hw
  | some rm =>
    simp only [hrm] at h
    by_cases hnc : rm.is_noncoding = true
    · rw [if_pos hnc] at h
      cases hsp : split_by_pos (fs 4) (fs 5) l0 (pos - rm.length) with
      | error e => simp only [hsp] at h; exact absurd h (by simp)
      | ok lsp =>
        simp only [hsp] at h
        simp only [Except.ok.injEq] at h
        rw [← h]
        exact (split_wf_of_ok hw (by rw [hsp])).1
    · rw [if_neg hnc] at h
      rw [← (Except.ok.injEq _ _).mp h]
      exact hw

lemma insert_right_coalesce_wf {fs : Nat → Nat × Nat}
    {r0 : Tree} {mid1 : Segment × Nat} {out : Tree × (Segment × Nat)}
    (hw : r0.wf = true) (h : insert_right_coalesce fs r0 mid1 = .ok out) :
    out.1.wf = true := by
  rw [insert_right_coalesce] at h
  cases hlm : r0.leftmost_seg with
  | none =>
    simp only [hlm] at h
    rw [← (Except.ok.injEq _ _).mp h]
    exact hw
  | some lm =>
    simp only [hlm] at h
    by_cases hnc : lm.is_noncoding = true
    · rw [if_pos hnc] at h
      cases hsp : split_by_pos (fs 7) (fs 8) r0 lm.length with
      | error e => simp only [hsp] at h; exact absurd h (by simp)
      | ok rsp =>
        simp only [hsp] at h
        simp only [Except.ok.injEq] at h
        rw [← h]
        exact (split_wf_of_ok hw (by rw [hsp])).2
    · rw [if_neg hnc] at h
      rw [← (Except.ok.injEq _ _).mp h]
      exact hw

lemma insert_at_gap_wf {g : Genome} {pos : Int} {segment : Segment}
    {fs : Nat → Nat × Nat} {g' : Genome} (hw : g.root.wf = true)
    (h : g.insert_at_gap pos segment fs = .ok g') : g'.root.wf = true := by
  rw [Genome.insert_at_gap] at h
  by_cases hnc : segment.is_noncoding = false
  · rw [if_pos hnc] at h
    exact absurd h (by simp)
  rw [if_neg hnc] at h
  cases hv : validate_position pos g.length CoordinateSystem.gap with
  | error e => simp only [hv] at h; exact absurd h (by simp)
  | ok u =>
    simp only [hv] at h
    cases hsp : split_by_pos (fs 0) (fs 1) g.root pos with
    | error e => simp only [hsp] at h; exact absurd h (by simp)
    | ok lr =>
      simp only [hsp] at h
      obtain ⟨wl, wr⟩ := split_wf_of_ok hw (by rw [hsp, Prod.mk.eta])
      cases hst1 : insert_left_coalesce pos segment fs lr.1 (segment, (fs 2).1) with
      | error e => simp only [hst1] at h; exact absurd h (by simp)
      | ok s1 =>
        simp only [hst1] at h
        cases hst2 : insert_right_coalesce fs lr.2 s1.2 with
        | error e => simp only [hst2] at h; exact absurd h (by simp)
        | ok s2 =>
          simp only [hst2] at h
          rw [← (Except.ok.injEq _ _).mp h]
          exact wf_merge (wf_merge (insert_left_coalesce_wf wl hst1) (wf_mkNode _ _))
            (insert_right_coalesce_wf wr hst2)

lemma delete_core_wf {g : Genome} {start stop : Int} {f1 f2 f3 f4 : Nat × Nat}
    {g' : Genome} (hw : g.root.wf = true)
    (h : delete_core g start stop f1 f2 f3 f4 = .ok g') : g'.root.wf = true := by
  rw [delete_core] at h
  cases hs1 : split_by_pos f1 f2 g.root start with
  | error e => simp only [hs1] at h; exact absurd h (by simp)
  | ok lr =>
    simp only [hs1] at h
    obtain ⟨wl, wr⟩ := split_wf_of_ok hw (by rw [hs1, Prod.mk.eta])
    cases hs2 : split_by_pos f3 f4 lr.2 (stop - start) with
    | error e => simp only [hs2] at h; exact absurd h (by simp)
    | ok mr =>
      simp only [hs2] at h
      obtain ⟨wm, wr2⟩ := split_wf_of_ok wr (by rw [hs2, Prod.mk.eta])
      rw [← (Except.ok.injEq _ _).mp h]
      exact wf_merge wl wr2

lemma delete_range_wf {g : Genome} {start stop : Int} {fs : Nat → Nat × Nat}
    {g' : Genome} (hw : g.root.wf = true)
    (h : g.delete_range start stop fs = .ok g') : g'.root.wf = true := by
  rw [Genome.delete_range] at h
  cases hv1 : validate_position start g.length CoordinateSystem.base with
  | error e => simp only [hv1] at h; exact absurd h (by simp)
  | ok u =>
    simp only [hv1] at h
    cases hv2 : validate_position stop g.length CoordinateSystem.gap with
    | error e => simp only [hv2] at h; exact absurd h (by simp)
    | ok u2 =>
      simp only [hv2] at h
      by_cases he : start = stop
      · rw [if_pos he] at h
        rw [← (Except.ok.injEq _ _).mp h]
        exact hw
      rw [if_neg he] at h
      by_cases hgt : start > stop
      · rw [if_pos hgt] at h
        by_cases hc : g.circular = true
        · rw [if_pos hc] at h
          cases hd1 : delete_core g start g.length (fs 0) (fs 1) (fs 2) (fs 3) with
          | error e => simp only [hd1] at h; exact absurd h (by simp)
          | ok g1 =>
            simp only [hd1] at h
            exact delete_core_wf (delete_core_wf hw hd1) h
        · rw [if_neg hc] at h
          exact absurd h (by simp)
      · rw [if_neg hgt] at h
        exact delete_core_wf hw h

lemma extend_segment_at_wf {g : Genome} {pos delta : Int} {fs : Nat → Nat × Nat}
    {g' : Genome} (hw : g.root.wf = true)
    (h : g.extend_segment_at pos delta fs = .ok g') : g'.root.wf = true := by
  rw [Genome.extend_segment_at] at h
  by_cases hd : delta < 0
  · rw [if_pos hd] at h
    exact absurd h (by simp)
  rw [if_neg hd] at h
  cases hv : validate_position pos g.length CoordinateSystem.gap with
  | error e => simp only [hv] at h; exact absurd h (by simp)
  | ok u =>
    simp only [hv] at h
    cases hf : g.find_segment_at_position pos CoordinateSystem.gap with
    | error e => simp only [hf] at h; exact absurd h (by simp)
    | ok found =>
      simp only [hf] at h
      by_cases hnc : found.1.is_noncoding = false
      · rw [if_pos hnc] at h
        exact absurd h (by simp)
      rw [if_neg hnc] at h
      cases hs1 : split_by_pos (fs 0) (fs 1) g.root found.2.2.1 with
      | error e => simp only [hs1] at h; exact absurd h (by simp)
      | ok lr =>
        simp only [hs1] at h
        obtain ⟨wl, wbc⟩ := split_wf_of_ok hw (by rw [hs1, Prod.mk.eta])
        cases hs2 : split_by_pos (fs 2) (fs 3) lr.2 found.1.length with
        | error e => simp only [hs2] at h; exact absurd h (by simp)
        | ok mr =>
          simp only [hs2] at h
          obtain ⟨wm, wr2⟩ := split_wf_of_ok wbc (by rw [hs2, Prod.mk.eta])
          cases hm : mr.1 with
          | nil => simp only [hm] at h; exact absurd h (by simp)
          | node ml ms mp mc mrr =>
            simp only [hm] at h
            rw [hm] at wm
            rcases wf_node_iff.mp wm with ⟨_, wml, wmr⟩
            rw [← (Except.ok.injEq _ _).mp h]
            exact wf_merge (wf_merge wl (wf_updated wml wmr)) wr2

lemma touch_root_wf {t : Tree} (h : t.wf = true) : (touch_root t).wf = true := by
  cases t with
  | nil => rfl
  | node l s p c r =>
    rcases wf_node_iff.mp h with ⟨_, hl, hr⟩
    exact wf_updated hl hr

lemma inversion_left_step_wf {inv : Inversion} {fs : Nat → Nat × Nat} {l0 : Tree}
    {inverted : List Segment} {out : Tree × List Segment} (hw : l0.wf = true)
    (h : inversion_left_step inv fs l0 inverted = .ok out) : out.1.wf = true := by
  rw [inversion_left_step] at h
  cases hrm : l0.rightmost_seg with
  | none =>
    simp only [hrm] at h
    rw [← (Except.ok.injEq _ _).mp h]
    exact hw
  | some rm =>
    cases hinv : inverted with
    | nil =>
      simp only [hrm, hinv] at h
      rw [← (Except.ok.injEq _ _).mp h]
      exact hw
    | cons s0 srest =>
      simp only [hrm, hinv] at h
      by_cases hnc : (rm.is_noncoding && s0.is_noncoding) = true
      · rw [if_pos hnc] at h
        cases hsp : split_by_pos (fs 5) (fs 6) l0 (inv.start_pos - rm.length) with
        | error e => simp only [hsp] at h; exact absurd h (by simp)
        | ok lsp =>
          simp only [hsp] at h
          simp only [Except.ok.injEq] at h
          rw [← h]
          exact wf_merge (split_wf_of_ok hw (by rw [hsp, Prod.mk.eta])).1 (wf_mkNode _ _)
      · rw [if_neg hnc] at h
        rw [← (Except.ok.injEq _ _).mp h]
        exact hw

lemma inversion_right_step_wf {fs : Nat → Nat × Nat} {r0 : Tree}
    {inverted1 : List Segment} {out : Tree × List Segment} (hw : r0.wf = true)
    (h : inversion_right_step fs r0 inverted1 = .ok out) : out.1.wf = true := by
  rw [inversion_right_step] at h
  cases hlm : r0.leftmost_seg with
  | none =>
    simp only [hlm] at h
    rw [← (Except.ok.injEq _ _).mp h]
    exact hw
  | some lm =>
    cases hinv : inverted1.getLast? with
    | none =>
      simp only [hlm, hinv] at h
      rw [← (Except.ok.injEq _ _).mp h]
      exact hw
    | some slast =>
      simp only [hlm, hinv] at h
      by_cases hnc : (lm.is_noncoding && slast.is_noncoding) = true
      · rw [if_pos hnc] at h
        cases hsp : split_by_pos (fs 8) (fs 9) r0 lm.length with
        | error e => simp only [hsp] at h; exact absurd h (by simp)
        | ok rsp =>
          simp only [hsp] at h
          simp only [Except.ok.injEq] at h
          rw [← h]
          exact wf_merge (wf_mkNode _ _) (split_wf_of_ok hw (by rw [hsp, Prod.mk.eta])).2
      · rw [if_neg hnc] at h
        rw [← (Except.ok.injEq _ _).mp h]
        exact hw

lemma inversion_apply_wf {inv : Inversion} {g : Genome} {fs : Nat → Nat × Nat}
    {g' : Genome} (hw : g.root.wf = true)
    (h : inv.apply g fs = .ok g') : g'.root.wf = true := by
  rw [Inversion.apply] at h
  cases hs1 : split_by_pos (fs 0) (fs 1) g.root inv.start_pos with
  | error e => simp only [hs1] at h; exact absurd h (by simp)
  | ok lr =>
    simp only [hs1] at h
    obtain ⟨wl, wr⟩ := split_wf_of_ok hw (by rw [hs1, Prod.mk.eta])
    cases hs2 : split_by_pos (fs 2) (fs 3) lr.2 (inv.end_pos - inv.start_pos) with
    | error e => simp only [hs2] at h; exact absurd h (by simp)
    | ok mr =>
      simp only [hs2] at h
      obtain ⟨wm, wr2⟩ := split_wf_of_ok wr (by rw [hs2, Prod.mk.eta])
      cases hst1 : inversion_left_step inv fs lr.1
          ((Tree.inorder mr.1).reverse.map segment_invert) with
      | error e => simp only [hst1] at h; exact absurd h (by simp)
      | ok s1 =>
        simp only [hst1] at h
        cases hst2 : inversion_right_step fs mr.2 s1.2 with
        | error e => simp only [hst2] at h; exact absurd h (by simp)
        | ok s2 =>
          simp only [hst2] at h
          simp only [Except.ok.injEq] at h
          rw [← h]
          have w1 : s1.1.wf = true := inversion_left_step_wf wl hst1
          have w2 : s2.1.wf = true := inversion_right_step_wf wr2 hst2
          have wmid : (merge_nodes (fun k => (fs (10 + k)).1) 0 .nil s2.2).wf = true :=
            wf_merge_nodes _ _ 0 .nil rfl
          have wroot1 : (if s1.1 = .nil then merge_nodes (fun k => (fs (10 + k)).1) 0 .nil s2.2
              else merge s1.1 (merge_nodes (fun k => (fs (10 + k)).1) 0 .nil s2.2)).wf = true := by
            by_cases hc : s1.1 = Tree.nil
            · rw [if_pos hc]
              exact wmid
            · rw [if_neg hc]
              exact wf_merge w1 wmid
          by_cases hc2 : s2.1 = Tree.nil
          · rw [if_pos hc2]
            exact touch_root_wf wroot1
          · rw [if_neg hc2]
            exact touch_root_wf (wf_merge wroot1 w2)

/-- The public Genome operations and mutation applications quantified over by
the length invariant. -/
inductive GenomeOp where
  | insert_at_gap (pos : Int) (segment : Segment) (fs : Nat → Nat × Nat)
  | delete_range (start stop : Int) (fs : Nat → Nat × Nat)
  | extend_segment_at (pos delta : Int) (fs : Nat → Nat × Nat)
  | coalesce_all (sids prios : Nat → Nat)
  | apply_deletion (d : Deletion) (fs : Nat → Nat × Nat)
  | apply_duplication (d : Duplication) (fs : Nat → Nat × Nat) (fresh_sid : Nat)
  | apply_point_mutation (m : PointMutation)
  | apply_small_deletion (m : SmallDeletion) (fs : Nat → Nat × Nat)
  | apply_small_insertion (m : SmallInsertion) (fs : Nat → Nat × Nat) (fresh_sid : Nat)
  | apply_inversion (inv : Inversion) (fs : Nat → Nat × Nat)

/-- Run one public operation on a genome. -/
def run_op : GenomeOp → Genome → Except Err Genome
  | .insert_at_gap pos segment fs, g => g.insert_at_gap pos segment fs
  | .delete_range start stop fs, g => g.delete_range start stop fs
  | .extend_segment_at pos delta fs, g => g.extend_segment_at pos delta fs
  | .coalesce_all sids prios, g => .ok (g.coalesce_all sids prios)
  | .apply_deletion d fs, g => d.apply g fs
  | .apply_duplication d fs sid, g => d.apply g fs sid
  | .apply_point_mutation m, g => m.apply g
  | .apply_small_deletion m fs, g => m.apply g fs
  | .apply_small_insertion m fs sid, g => m.apply g fs sid
  | .apply_inversion inv fs, g => inv.apply g fs

lemma wf_length_eq {g : Genome} (hw : g.root.wf = true) :
    g.length = ((g.iter_segments).map (fun t => t.1.length)).sum := by
  have h1 : (g.iter_segments).map (fun t => t.1.length) =
      ((g.iter_segments).map (fun t => t.1)).map Segment.length := by
    rw [List.map_map]
    rfl
  rw [Genome.length, wf_sub_len hw, real_len_eq_list_len, h1, Genome.iter_segments,
    iter_tree_fst, list_len]

lemma run_op_wf {op : GenomeOp} {g g' : Genome} (hw : g.root.wf = true)
    (h : run_op op g = .ok g') : g'.root.wf = true := by
  cases op with
  | insert_at_gap pos segment fs => exact insert_at_gap_wf hw h
  | delete_range start stop fs => exact delete_range_wf hw h
  | extend_segment_at pos delta fs => exact extend_segment_at_wf hw h
  | coalesce_all sids prios =>
    rw [run_op] at h
    rw [← (Except.ok.injEq _ _).mp h]
    exact coalesce_all_wf g sids prios
  | apply_deletion d fs => exact delete_range_wf hw h
  | apply_duplication d fs sid =>
    rw [run_op, Duplication.apply] at h
    exact insert_at_gap_wf hw h
  | apply_point_mutation m =>
    rw [run_op, PointMutation.apply] at h
    rw [← (Except.ok.injEq _ _).mp h]
    exact hw
  | apply_small_deletion m fs => exact delete_range_wf hw h
  | apply_small_insertion m fs sid =>
    rw [run_op, SmallInsertion.apply] at h
    exact insert_at_gap_wf hw h
  | apply_inversion inv fs => exact inversion_apply_wf hw h

/-- C1: after construction, after every public operation
(insert_at_gap, delete_range, extend_segment_at, coalesce_all) and after every
mutation apply, the cached Genome.length equals the sum of segment.length over
the segments yielded by iter_segments(), and the cache invariant is preserved so
this keeps holding across arbitrary operation sequences. -/
theorem C1_length_invariant :
    (∀ (segs : List Segment) (circ : Bool) (prios : Nat → Nat),
      (Genome.init segs circ prios).root.wf = true ∧
      (Genome.init segs circ prios).length =
        (((Genome.init segs circ prios).iter_segments).map (fun t => t.1.length)).sum) ∧
    (∀ (op : GenomeOp) (g g' : Genome), g.root.wf = true → run_op op g = .ok g' →
      g'.root.wf = true ∧
      g'.length = ((g'.iter_segments).map (fun t => t.1.length)).sum) := by
  constructor
  · intro segs circ prios
    have hw : (Genome.init segs circ prios).root.wf = true :=
      wf_merge_nodes prios segs 0 .nil rfl
    exact ⟨hw, wf_length_eq hw⟩
  · intro op g g' hw h
    have hw2 := run_op_wf hw h
    exact ⟨hw2, wf_length_eq hw2⟩

/-- C1 witness: construction of a concrete genome, and a point-mutation apply on
it. -/
theorem C1_length_invariant_witness :
    ((Genome.init [{ kind := .noncoding, length := 10, sid := 0 }] false (fun k => k)).root.wf =
        true ∧
      (Genome.init [{ kind := .noncoding, length := 10, sid := 0 }] false (fun k => k)).length =
        (((Genome.init [{ kind := .noncoding, length := 10, sid := 0 }] false
          (fun k => k)).iter_segments).map (fun t => t.1.length)).sum) ∧
    (witness_genome.root.wf = true ∧
      witness_genome.length =
        ((witness_genome.iter_segments).map (fun t => t.1.length)).sum) :=
  ⟨C1_length_invariant.1 [{ kind := .noncoding, length := 10, sid := 0 }] false (fun k => k),
    C1_length_invariant.2 (GenomeOp.apply_point_mutation (PointMutation.mk 3))
      witness_genome witness_genome (by decide) rfl⟩

end Emergents
